import Mathlib

/-!
# IdeaHub crowdfunding ledger — verification development

The repository is a React/TypeScript scaffold for a creative-incubation
marketplace.  Its crowdfunding subsystem (campaign ledger, investment
record store, settlement coordinator, expiry scheduler) is declared by the
frontend API clients (`src/frontend/ideahub-web/src/api/crowdfunding.ts`),
its callers (`ProjectDetail.tsx`, the crowdfunding pages) and the design
document, but no backend implementation is present under the source tree.
The ledger operations below are therefore modelled from the specification
(its §3 data model and §4 component contracts) and the behavioural claims
are settled against that model.  The two display helpers
(`getDaysRemaining`, `getProgressPercentage`) are translated directly from
the frontend page source.
-/

namespace IdeaHub

/-- Campaign lifecycle status, from the spec §3 and the
`Crowdfunding.status` union in `src/frontend/ideahub-web/src/api/crowdfunding.ts`
(`pending | active | success | failed | cancelled`). -/
inductive CampaignStatus where
  | Pending
  | Active
  | Succeeded
  | Failed
  | Cancelled
deriving DecidableEq, Repr

/-- Terminal campaign states: Succeeded, Failed, Cancelled (spec §3). -/
def CampaignStatus.isTerminal : CampaignStatus → Bool
  | .Succeeded => true
  | .Failed => true
  | .Cancelled => true
  | _ => false

/-- Investment status, from the spec §3 and the `statusLabels` record in the
MyInvestments page (`src/unnamed/part_006`):
`pending | paid | confirmed | refunded | cancelled`. -/
inductive InvStatus where
  | Pending
  | Paid
  | Confirmed
  | Refunded
  | Cancelled
deriving DecidableEq, Repr

/-- The status keys used by the frontend `statusLabels` record
(`src/unnamed/part_006`, lines 6–12), in declaration order. -/
def statusLabelKeys : List String :=
  ["pending", "paid", "confirmed", "refunded", "cancelled"]

/-- The wire form of each investment status, as the frontend keys it. -/
def InvStatus.key : InvStatus → String
  | .Pending => "pending"
  | .Paid => "paid"
  | .Confirmed => "confirmed"
  | .Refunded => "refunded"
  | .Cancelled => "cancelled"

/-- Modelled from the spec: campaign record of the Campaign Ledger (§3).
Amounts are fixed-point decimals, embedded as scaled integers; times are
canonical UTC instants, embedded as integers.  `raised` and
`investorCount` are the derived aggregates. -/
structure Campaign where
  id : Nat
  projectId : Nat
  target : Int
  minInv : Int
  maxInv : Option Int
  raised : Int
  investorCount : Nat
  startTime : Int
  endTime : Int
  status : CampaignStatus
deriving DecidableEq, Repr

/-- Modelled from the spec: investment record of the Investment Record
Store (§3).  `paymentRef` is the external transaction id, unique once set. -/
structure Investment where
  id : Nat
  investorId : Nat
  campaignId : Nat
  amount : Int
  status : InvStatus
  paymentRef : Option Nat
deriving DecidableEq, Repr

/-- Modelled from the spec: the persisted ledger state (§6): campaigns and
investments tables plus fresh-id counters, and the log of refund-initiation
requests issued to the external payment collaborator. -/
structure LedgerState where
  campaigns : List Campaign
  investments : List Investment
  nextCampaignId : Nat
  nextInvestmentId : Nat
  refunds : List Nat
deriving DecidableEq, Repr

/-- Error taxonomy of the spec §7. -/
inductive LedgerError where
  | ValidationError
  | InvalidStateError
  | ConflictError
  | ForbiddenError
  | NotFoundError
deriving DecidableEq, Repr

def initState : LedgerState :=
  { campaigns := [], investments := [], nextCampaignId := 0,
    nextInvestmentId := 0, refunds := [] }

def findCampaign (st : LedgerState) (cid : Nat) : Option Campaign :=
  st.campaigns.find? (fun c => c.id == cid)

def findInvestment (st : LedgerState) (iid : Nat) : Option Investment :=
  st.investments.find? (fun i => i.id == iid)

/-- Update the campaign with the given id (ids are unique in well-formed
states, so at most one record changes). -/
def updCampaigns (l : List Campaign) (cid : Nat) (f : Campaign → Campaign) :
    List Campaign :=
  l.map (fun c => if c.id = cid then f c else c)

/-- Update the investment with the given id. -/
def updInvestments (l : List Investment) (iid : Nat)
    (f : Investment → Investment) : List Investment :=
  l.map (fun i => if i.id = iid then f i else i)

/-- Does this investment count towards the given campaign's aggregates?
Spec §3: only investments in `Confirmed` state belonging to the campaign. -/
def countsFor (cid : Nat) (i : Investment) : Bool :=
  i.campaignId == cid && i.status == InvStatus.Confirmed

/-- Sum of `amount` over the campaign's Confirmed investments (spec §3). -/
def confirmedSum (l : List Investment) (cid : Nat) : Int :=
  ((l.filter (countsFor cid)).map (fun i => i.amount)).sum

/-- Number of distinct investor ids among the campaign's Confirmed
investments (spec §3). -/
def confirmedInvestors (l : List Investment) (cid : Nat) : Nat :=
  ((l.filter (countsFor cid)).map (fun i => i.investorId)).dedup.length

/-- Is `maxInv` present and below `minInv`? (validation of spec §4.1). -/
def maxBelowMin (maxInv : Option Int) (minInv : Int) : Bool :=
  match maxInv with
  | some m => m < minInv
  | none => false

/-- Is the amount above a present per-pledge maximum? (spec §4.2). -/
def aboveMax (maxInv : Option Int) (amount : Int) : Bool :=
  match maxInv with
  | some m => m < amount
  | none => false

/-- A newly created campaign record: Pending, zero aggregates (spec §3). -/
def freshCampaign (cid projectId : Nat) (target minInv : Int)
    (maxInv : Option Int) (startT endT : Int) : Campaign :=
  { id := cid, projectId := projectId, target := target, minInv := minInv,
    maxInv := maxInv, raised := 0, investorCount := 0, startTime := startT,
    endTime := endT, status := .Pending }

/-- A newly created investment record: Pending, no payment reference yet
(spec §4.2). -/
def freshInvestment (iid uid cid : Nat) (amount : Int) : Investment :=
  { id := iid, investorId := uid, campaignId := cid, amount := amount,
    status := .Pending, paymentRef := none }

/-- Modelled from the spec: `createCampaign` of the Campaign Ledger
(§4.1); the backend endpoint `POST /crowdfunding` called by
`crowdfundingApi.create` has no implementation under the source tree.
Fails with `ValidationError` if `target ≤ 0`, `minInvestment ≤ 0`,
`maxInvestment` present and `< minInvestment`, or `start ≥ end`; fails
with `ConflictError` if the project already has a non-terminal campaign. -/
def createCampaign (st : LedgerState) (projectId : Nat) (target minInv : Int)
    (maxInv : Option Int) (startT endT : Int) :
    Except LedgerError LedgerState :=
  if target ≤ 0 then .error .ValidationError
  else if minInv ≤ 0 then .error .ValidationError
  else if maxBelowMin maxInv minInv then .error .ValidationError
  else if endT ≤ startT then .error .ValidationError
  else if st.campaigns.any
      (fun c => c.projectId == projectId && !c.status.isTerminal) then
    .error .ConflictError
  else
    .ok { st with
      campaigns := st.campaigns ++
        [freshCampaign st.nextCampaignId projectId target minInv maxInv
          startT endT],
      nextCampaignId := st.nextCampaignId + 1 }

/-- Modelled from the spec: `startCampaign` of the Campaign Ledger (§4.1):
valid only from Pending, `InvalidStateError` otherwise. -/
def startCampaign (st : LedgerState) (cid : Nat) :
    Except LedgerError LedgerState :=
  match findCampaign st cid with
  | none => .error .NotFoundError
  | some c =>
    if c.status = .Pending then
      .ok { st with
        campaigns := updCampaigns st.campaigns cid
          (fun c0 => { c0 with status := .Active }) }
    else .error .InvalidStateError

/-- Modelled from the spec: `createInvestment` of the Investment Record
Store (§4.2); the backend endpoint behind `investmentsApi.create` (called
from `handleInvest` in `ProjectDetail.tsx`) has no implementation under
the source tree.  `ValidationError` if the amount is outside
`[min_investment, max_investment]` from the campaign snapshot;
`InvalidStateError` if the campaign is not Active or `now` is outside
`[start_time, end_time)`; on success, a Pending record is appended and
the campaign aggregates are untouched. -/
def createInvestment (st : LedgerState) (cid investorId : Nat)
    (amount now : Int) : Except LedgerError LedgerState :=
  match findCampaign st cid with
  | none => .error .NotFoundError
  | some c =>
    if amount < c.minInv then .error .ValidationError
    else if aboveMax c.maxInv amount then .error .ValidationError
    else if c.status ≠ .Active then .error .InvalidStateError
    else if now < c.startTime ∨ c.endTime ≤ now then .error .InvalidStateError
    else
      .ok { st with
        investments := st.investments ++
          [freshInvestment st.nextInvestmentId investorId cid amount],
        nextInvestmentId := st.nextInvestmentId + 1 }

/-- Modelled from the spec: `markPaid` of the Investment Record Store
(§4.2), the entry point of the payment-provider confirmation signal.
Idempotent: an investment that already bears this exact `paymentReference`
is returned unchanged; `ConflictError` if the reference is attached to a
different investment (double-spend protection); on first application a
Pending investment moves to Paid and the reference is recorded.  The
settlement evaluation it requests from the Coordinator is the separate
`settle` step below. -/
def markPaid (st : LedgerState) (iid ref : Nat) :
    Except LedgerError (Investment × LedgerState) :=
  match findInvestment st iid with
  | none => .error .NotFoundError
  | some inv =>
    match inv.paymentRef with
    | some r =>
      if r = ref then .ok (inv, st) else .error .ConflictError
    | none =>
      if st.investments.any (fun j => j.paymentRef == some ref) then
        .error .ConflictError
      else if inv.status = .Pending then
        .ok ({ inv with status := .Paid, paymentRef := some ref },
          { st with
            investments := updInvestments st.investments iid
              (fun i => { i with status := .Paid, paymentRef := some ref }) })
      else .error .InvalidStateError

/-- Modelled from the spec: the Settlement Coordinator's reaction to a
`markPaid` event (§4.3): re-read the campaign; if Active, the investment
moves to Confirmed, `raised_amount` is incremented as a running total and
`investor_count` is recomputed as the distinct confirmed investor ids; if
the campaign is Pending (pre-start) the investment is Cancelled; if the
campaign is already terminal the investment is routed to refund.  Settling
an investment that is not in Paid is a no-op. -/
def settle (st : LedgerState) (iid : Nat) : Except LedgerError LedgerState :=
  match findInvestment st iid with
  | none => .error .NotFoundError
  | some inv =>
    if inv.status = .Paid then
      match findCampaign st inv.campaignId with
      | none => .error .NotFoundError
      | some c =>
        match c.status with
        | .Active =>
          let invs2 := updInvestments st.investments iid
            (fun i => { i with status := .Confirmed })
          .ok { st with
            investments := invs2,
            campaigns := updCampaigns st.campaigns c.id
              (fun c0 => { c0 with
                raised := c0.raised + inv.amount,
                investorCount := confirmedInvestors invs2 c0.id }) }
        | .Pending =>
          .ok { st with
            investments := updInvestments st.investments iid
              (fun i => { i with status := .Cancelled }) }
        | _ =>
          .ok { st with
            investments := updInvestments st.investments iid
              (fun i => { i with status := .Refunded }),
            refunds := st.refunds ++ [iid] }
    else .ok st

/-- Modelled from the spec: `cancelPending` of the Investment Record Store
(§4.2): valid only while the record is Pending and the caller is the
owning investor, `ForbiddenError` otherwise. -/
def cancelPending (st : LedgerState) (iid uid : Nat) :
    Except LedgerError LedgerState :=
  match findInvestment st iid with
  | none => .error .NotFoundError
  | some inv =>
    if inv.status = .Pending ∧ inv.investorId = uid then
      .ok { st with
        investments := updInvestments st.investments iid
          (fun i => { i with status := .Cancelled }) }
    else .error .ForbiddenError

/-- The per-investment effect of a campaign failure or cancellation
(spec §4.3): Confirmed or Paid investments of the campaign move to
Refunded, still-Pending investments move to Cancelled, everything else is
untouched. -/
def refundUpd (cid : Nat) (i : Investment) : Investment :=
  if i.campaignId = cid then
    match i.status with
    | .Confirmed => { i with status := .Refunded }
    | .Paid => { i with status := .Refunded }
    | .Pending => { i with status := .Cancelled }
    | _ => i
  else i

/-- Is this investment owed a refund when its campaign fails? -/
def needsRefund (cid : Nat) (i : Investment) : Bool :=
  i.campaignId == cid &&
    (i.status == InvStatus.Confirmed || i.status == InvStatus.Paid)

/-- Modelled from the spec: the Coordinator's failure path (§4.3): the
campaign moves to the given terminal status, every Confirmed or Paid
investment is refunded (with a refund-initiation request recorded per
record), every Pending one is cancelled, and the derived aggregates are
brought back in line with the now-empty set of Confirmed investments. -/
def failCampaign (st : LedgerState) (cid : Nat) (final : CampaignStatus) :
    LedgerState :=
  { st with
    investments := st.investments.map (refundUpd cid),
    campaigns := updCampaigns st.campaigns cid
      (fun c0 => { c0 with status := final, raised := 0, investorCount := 0 }),
    refunds := st.refunds ++
      ((st.investments.filter (needsRefund cid)).map (fun i => i.id)) }

/-- Modelled from the spec: the Coordinator's expiry evaluation (§4.3,
triggered by the Expiry Scheduler of §4.4 for `now ≥ end_time`): an Active
campaign whose end time has passed moves to Succeeded if
`raised_amount ≥ target_amount` and to Failed otherwise (running the
refund path); evaluating an already-terminal campaign is a no-op, not an
error. -/
def evaluateExpiry (st : LedgerState) (cid : Nat) (now : Int) :
    Except LedgerError LedgerState :=
  match findCampaign st cid with
  | none => .error .NotFoundError
  | some c =>
    if c.status.isTerminal then .ok st
    else if c.status = .Active ∧ c.endTime ≤ now then
      if c.target ≤ c.raised then
        .ok { st with
          campaigns := updCampaigns st.campaigns cid
            (fun c0 => { c0 with status := .Succeeded }) }
      else .ok (failCampaign st cid .Failed)
    else .ok st

/-- Modelled from the spec: explicit early close by the owner (§4.3): the
same success/failure decision as expiry evaluation, without the time
guard; a no-op on an already-terminal campaign. -/
def closeEarly (st : LedgerState) (cid : Nat) :
    Except LedgerError LedgerState :=
  match findCampaign st cid with
  | none => .error .NotFoundError
  | some c =>
    if c.status.isTerminal then .ok st
    else if c.status = .Active then
      if c.target ≤ c.raised then
        .ok { st with
          campaigns := updCampaigns st.campaigns cid
            (fun c0 => { c0 with status := .Succeeded }) }
      else .ok (failCampaign st cid .Failed)
    else .ok st

/-- Modelled from the spec: `cancelCampaign` of the Campaign Ledger
(§4.1): a Pending campaign is cancelled by a bare status flip (it can have
no investments); cancelling an Active campaign routes through the
Coordinator's failure path with its refund obligations. -/
def cancelCampaign (st : LedgerState) (cid : Nat) :
    Except LedgerError LedgerState :=
  match findCampaign st cid with
  | none => .error .NotFoundError
  | some c =>
    match c.status with
    | .Pending =>
      .ok { st with
        campaigns := updCampaigns st.campaigns cid
          (fun c0 => { c0 with status := .Cancelled }) }
    | .Active => .ok (failCampaign st cid .Cancelled)
    | _ => .error .InvalidStateError

/-- The operations of the ledger, as invoked by its callers. -/
inductive Op where
  | createCampaign (projectId : Nat) (target minInv : Int)
      (maxInv : Option Int) (startT endT : Int)
  | startCampaign (cid : Nat)
  | createInvestment (cid investorId : Nat) (amount now : Int)
  | markPaid (iid ref : Nat)
  | settle (iid : Nat)
  | cancelPending (iid uid : Nat)
  | evaluateExpiry (cid : Nat) (now : Int)
  | closeEarly (cid : Nat)
  | cancelCampaign (cid : Nat)
deriving DecidableEq, Repr

/-- Errors are surfaced to the caller and leave the state unchanged
(spec §7: rejected before any state change). -/
def orKeep (st : LedgerState) : Except LedgerError LedgerState → LedgerState
  | .ok st2 => st2
  | .error _ => st

/-- One observable step of the ledger. -/
def applyOp (st : LedgerState) : Op → LedgerState
  | .createCampaign p t mi ma s e => orKeep st (createCampaign st p t mi ma s e)
  | .startCampaign cid => orKeep st (startCampaign st cid)
  | .createInvestment cid uid a now => orKeep st (createInvestment st cid uid a now)
  | .markPaid iid ref =>
    match markPaid st iid ref with
    | .ok pr => pr.2
    | .error _ => st
  | .settle iid => orKeep st (settle st iid)
  | .cancelPending iid uid => orKeep st (cancelPending st iid uid)
  | .evaluateExpiry cid now => orKeep st (evaluateExpiry st cid now)
  | .closeEarly cid => orKeep st (closeEarly st cid)
  | .cancelCampaign cid => orKeep st (cancelCampaign st cid)

/-- The state observable after a sequence of operations from the empty
ledger. -/
def run (ops : List Op) : LedgerState := ops.foldl applyOp initState

/-- Payment references present in the store, with multiplicity. -/
def refsOf (l : List Investment) : List Nat :=
  l.filterMap (fun i => i.paymentRef)

/-- Well-formedness of a ledger state: unique identities, id counters
bounding all stored ids, the aggregate invariant of spec §3, and the
storage-layer uniqueness of payment references of spec §6. -/
structure WF (st : LedgerState) : Prop where
  campIdsNodup : (st.campaigns.map (fun c => c.id)).Nodup
  campIdsLt : ∀ c ∈ st.campaigns, c.id < st.nextCampaignId
  invIdsNodup : (st.investments.map (fun i => i.id)).Nodup
  invIdsLt : ∀ i ∈ st.investments, i.id < st.nextInvestmentId
  invCampLt : ∀ i ∈ st.investments, i.campaignId < st.nextCampaignId
  raisedEq : ∀ c ∈ st.campaigns, c.raised = confirmedSum st.investments c.id
  countEq : ∀ c ∈ st.campaigns,
    c.investorCount = confirmedInvestors st.investments c.id
  refsNodup : (refsOf st.investments).Nodup

/-- The campaign status observable through `getCampaign` (spec §4.1). -/
def campaignStatus (st : LedgerState) (cid : Nat) : Option CampaignStatus :=
  (findCampaign st cid).map (fun c => c.status)

/-- The per-operation status transitions the spec permits for one
investment (spec §3 lifecycle and §5 ordering): stay put, advance one step
along Pending → Paid → Confirmed (never skipping, never backward), exit to
Cancelled from Pending (withdrawal, or campaign closed before payment) or
from Paid (campaign still pre-start when the payment landed, §4.3a), exit
to Refunded from Paid or Confirmed (campaign failed or cancelled).
Refunded and Cancelled have no outgoing edges: they are terminal. -/
def stepOK : InvStatus → InvStatus → Bool
  | .Pending, .Pending => true
  | .Pending, .Paid => true
  | .Pending, .Cancelled => true
  | .Paid, .Paid => true
  | .Paid, .Confirmed => true
  | .Paid, .Refunded => true
  | .Paid, .Cancelled => true
  | .Confirmed, .Confirmed => true
  | .Confirmed, .Refunded => true
  | .Refunded, .Refunded => true
  | .Cancelled, .Cancelled => true
  | _, _ => false

/-- Milliseconds per day, written as the source writes it:
`1000 * 60 * 60 * 24` (`src/unnamed/part_005`, line 48). -/
def msPerDay : Int := 1000 * 60 * 60 * 24

/-- `getDaysRemaining` from the crowdfunding hall page
(`src/unnamed/part_005`, lines 44–49):
`Math.max(0, Math.ceil(diff / (1000 * 60 * 60 * 24)))` where
`diff = end.getTime() - now.getTime()` is a difference of integer epoch
milliseconds.  The exact ceiling of `diff / d` over the integers is
`-((-diff) / d)`, with `Int./` the floor division for a positive divisor. -/
def getDaysRemaining (endTime now : Int) : Int :=
  max 0 (-((now - endTime) / msPerDay))

/-- `getProgressPercentage` from the crowdfunding hall page
(`src/unnamed/part_005`, lines 40–42):
`Math.min((current / target) * 100, 100)`, embedded over exact rationals. -/
def getProgressPercentage (current target : ℚ) : ℚ :=
  min (current / target * 100) 100

/-- A concrete scenario: one campaign (target 1000), started, one
investment of 200 by investor 7, paid with reference 55 and settled: the
investment ends Confirmed and the campaign aggregates read 200 / 1. -/
def opsA : List Op :=
  [.createCampaign 1 1000 100 none 0 100, .startCampaign 0,
   .createInvestment 0 7 200 10, .markPaid 0 55, .settle 0]

/-- The Confirmed investment record the scenario `opsA` produces. -/
def invA : Investment :=
  { id := 0, investorId := 7, campaignId := 0, amount := 200,
    status := .Confirmed, paymentRef := some 55 }

/-- The campaign record the scenario `opsA` produces. -/
def campA : Campaign :=
  { id := 0, projectId := 1, target := 1000, minInv := 100, maxInv := none,
    raised := 200, investorCount := 1, startTime := 0, endTime := 100,
    status := .Active }

/-- A concrete scenario: like `opsA` but with a second, still-Pending
investment of 300 by investor 8, and no settlement of the first. -/
def opsB : List Op :=
  [.createCampaign 1 1000 100 none 0 100, .startCampaign 0,
   .createInvestment 0 7 200 10, .createInvestment 0 8 300 10,
   .markPaid 0 55]

/-- The Paid investment bearing reference 55 that `opsB` produces. -/
def invB0 : Investment :=
  { id := 0, investorId := 7, campaignId := 0, amount := 200,
    status := .Paid, paymentRef := some 55 }

/-- The Pending investment that `opsB` produces. -/
def invB1 : Investment :=
  { id := 1, investorId := 8, campaignId := 0, amount := 300,
    status := .Pending, paymentRef := none }

/-- The Refunded form of `invA` after its campaign fails at expiry. -/
def invA2 : Investment :=
  { id := 0, investorId := 7, campaignId := 0, amount := 200,
    status := .Refunded, paymentRef := some 55 }

/-! ## Basic lemmas about the predicates and aggregates -/

lemma countsFor_true_iff {cid : Nat} {i : Investment} :
    countsFor cid i = true ↔ i.campaignId = cid ∧ i.status = .Confirmed := by
  simp [countsFor]

lemma countsFor_status_ne {cid : Nat} {i : Investment}
    (h : i.status ≠ .Confirmed) : countsFor cid i = false := by
  have hb : (i.status == InvStatus.Confirmed) = false :=
    beq_eq_false_iff_ne.mpr h
  simp [countsFor, hb]

lemma countsFor_camp_ne {cid : Nat} {i : Investment}
    (h : i.campaignId ≠ cid) : countsFor cid i = false := by
  have hb : (i.campaignId == cid) = false := beq_eq_false_iff_ne.mpr h
  simp [countsFor, hb]

lemma confirmedSum_append (s t : List Investment) (cid : Nat) :
    confirmedSum (s ++ t) cid = confirmedSum s cid + confirmedSum t cid := by
  simp [confirmedSum, List.filter_append]

lemma confirmedSum_cons (i : Investment) (t : List Investment) (cid : Nat) :
    confirmedSum (i :: t) cid =
      (if countsFor cid i then i.amount else 0) + confirmedSum t cid := by
  simp only [confirmedSum, List.filter_cons]
  by_cases h : countsFor cid i = true
  · simp [h]
  · simp [h]

lemma confirmedSum_eq_zero {l : List Investment} {cid : Nat}
    (h : ∀ i ∈ l, countsFor cid i = false) : confirmedSum l cid = 0 := by
  have : l.filter (countsFor cid) = [] := by
    apply List.filter_eq_nil_iff.mpr
    intro i hi
    simp [h i hi]
  simp [confirmedSum, this]

lemma confirmedInvestors_eq_zero {l : List Investment} {cid : Nat}
    (h : ∀ i ∈ l, countsFor cid i = false) : confirmedInvestors l cid = 0 := by
  have : l.filter (countsFor cid) = [] := by
    apply List.filter_eq_nil_iff.mpr
    intro i hi
    simp [h i hi]
  simp [confirmedInvestors, this]

/-- A pointwise-stable map does not change a filter: elements that pass
the filter are left untouched and passing is preserved. -/
lemma filter_map_stable {α : Type} (l : List α) (g : α → α) (p : α → Bool)
    (h : ∀ a ∈ l, p (g a) = p a ∧ (p a = true → g a = a)) :
    (l.map g).filter p = l.filter p := by
  induction l with
  | nil => simp
  | cons a t ih =>
    have ha := h a (List.mem_cons_self a t)
    have ht : ∀ b ∈ t, p (g b) = p b ∧ (p b = true → g b = b) :=
      fun b hb => h b (List.mem_cons_of_mem a hb)
    simp only [List.map_cons, List.filter_cons, ha.1]
    by_cases hpa : p a = true
    · simp only [hpa, if_true, ha.2 hpa, ih ht]
    · rw [Bool.not_eq_true] at hpa
      simp [hpa, ih ht]

lemma confirmedSum_map_stable {l : List Investment} {g : Investment → Investment}
    {cid : Nat}
    (h : ∀ i ∈ l, countsFor cid (g i) = countsFor cid i ∧
      (countsFor cid i = true → g i = i)) :
    confirmedSum (l.map g) cid = confirmedSum l cid := by
  simp [confirmedSum, filter_map_stable l g (countsFor cid) h]

lemma confirmedInvestors_map_stable {l : List Investment}
    {g : Investment → Investment} {cid : Nat}
    (h : ∀ i ∈ l, countsFor cid (g i) = countsFor cid i ∧
      (countsFor cid i = true → g i = i)) :
    confirmedInvestors (l.map g) cid = confirmedInvestors l cid := by
  simp [confirmedInvestors, filter_map_stable l g (countsFor cid) h]

/-! ## Lemmas about lookup and update -/

lemma findCampaign_spec {st : LedgerState} {cid : Nat} {c : Campaign}
    (h : findCampaign st cid = some c) : c ∈ st.campaigns ∧ c.id = cid := by
  refine ⟨List.mem_of_find?_eq_some h, ?_⟩
  have := List.find?_some h
  simpa using this

lemma findInvestment_spec {st : LedgerState} {iid : Nat} {inv : Investment}
    (h : findInvestment st iid = some inv) :
    inv ∈ st.investments ∧ inv.id = iid := by
  refine ⟨List.mem_of_find?_eq_some h, ?_⟩
  have := List.find?_some h
  simpa using this

lemma inv_eq_of_id_eq {l : List Investment}
    (hn : (l.map (fun i => i.id)).Nodup) {i j : Investment}
    (hi : i ∈ l) (hj : j ∈ l) (h : i.id = j.id) : i = j :=
  List.inj_on_of_nodup_map hn hi hj h

lemma camp_eq_of_id_eq {l : List Campaign}
    (hn : (l.map (fun c => c.id)).Nodup) {c d : Campaign}
    (hc : c ∈ l) (hd : d ∈ l) (h : c.id = d.id) : c = d :=
  List.inj_on_of_nodup_map hn hc hd h

lemma mem_updCampaigns {l : List Campaign} {cid : Nat} {f : Campaign → Campaign}
    {c2 : Campaign} (h : c2 ∈ updCampaigns l cid f) :
    ∃ c ∈ l, c2 = if c.id = cid then f c else c := by
  simp only [updCampaigns, List.mem_map] at h
  obtain ⟨c, hc, hcc⟩ := h
  exact ⟨c, hc, hcc.symm⟩

lemma mem_updInvestments {l : List Investment} {iid : Nat}
    {f : Investment → Investment} {i2 : Investment}
    (h : i2 ∈ updInvestments l iid f) :
    ∃ i ∈ l, i2 = if i.id = iid then f i else i := by
  simp only [updInvestments, List.mem_map] at h
  obtain ⟨i, hi, hii⟩ := h
  exact ⟨i, hi, hii.symm⟩

lemma updCampaigns_map_id {l : List Campaign} {cid : Nat}
    {f : Campaign → Campaign} (hf : ∀ c, (f c).id = c.id) :
    (updCampaigns l cid f).map (fun c => c.id) = l.map (fun c => c.id) := by
  simp only [updCampaigns, List.map_map]
  apply List.map_congr_left
  intro c _
  by_cases h : c.id = cid <;> simp [h, hf]

lemma updInvestments_map_id {l : List Investment} {iid : Nat}
    {f : Investment → Investment} (hf : ∀ i, (f i).id = i.id) :
    (updInvestments l iid f).map (fun i => i.id) = l.map (fun i => i.id) := by
  simp only [updInvestments, List.map_map]
  apply List.map_congr_left
  intro i _
  by_cases h : i.id = iid <;> simp [h, hf]

/-- Decompose a list around a member whose id is unique: the update
rewrites exactly that member. -/
lemma updInvestments_decomp {l : List Investment} {inv : Investment}
    (hn : (l.map (fun i => i.id)).Nodup) (hmem : inv ∈ l)
    (f : Investment → Investment) :
    ∃ s t, l = s ++ inv :: t ∧
      updInvestments l inv.id f = s ++ f inv :: t ∧
      (∀ j ∈ s, j.id ≠ inv.id) ∧ (∀ j ∈ t, j.id ≠ inv.id) := by
  obtain ⟨s, t, rfl⟩ := List.append_of_mem hmem
  have hn2 := hn
  simp only [List.map_append, List.map_cons, List.nodup_append,
    List.nodup_cons] at hn2
  obtain ⟨hs, ⟨hnt, _⟩, hdisj⟩ := hn2
  have hsne : ∀ j ∈ s, j.id ≠ inv.id := by
    intro j hj hid
    have : inv.id ∈ inv.id :: t.map (fun i => i.id) := List.mem_cons_self _ _
    exact (hdisj (a := j.id) (List.mem_map_of_mem _ hj)) (hid ▸ this)
  have htne : ∀ j ∈ t, j.id ≠ inv.id := by
    intro j hj hid
    exact hnt (hid ▸ List.mem_map_of_mem (fun i => i.id) hj)
  refine ⟨s, t, rfl, ?_, hsne, htne⟩
  simp only [updInvestments, List.map_append, List.map_cons, if_pos rfl]
  congr 1
  · apply List.map_congr_left (g := id) ?_ |>.trans (List.map_id s)
    intro j hj
    simp [hsne j hj]
  · congr 1
    apply List.map_congr_left (g := id) ?_ |>.trans (List.map_id t)
    intro j hj
    simp [htne j hj]

lemma refsOf_append (s t : List Investment) :
    refsOf (s ++ t) = refsOf s ++ refsOf t := by
  simp [refsOf, List.filterMap_append]

lemma refsOf_map_stable {l : List Investment} {g : Investment → Investment}
    (h : ∀ i ∈ l, (g i).paymentRef = i.paymentRef) :
    refsOf (l.map g) = refsOf l := by
  simp only [refsOf, List.filterMap_map]
  exact List.filterMap_congr (fun i hi => by simp [Function.comp, h i hi])

/-! ## Preservation of well-formedness by every operation -/

lemma wf_init : WF initState := by
  constructor <;> simp [initState, refsOf]

lemma updInvestments_eq (l : List Investment) (iid : Nat)
    (f : Investment → Investment) :
    updInvestments l iid f = l.map (fun i => if i.id = iid then f i else i) :=
  rfl

lemma updCampaigns_eq (l : List Campaign) (cid : Nat)
    (f : Campaign → Campaign) :
    updCampaigns l cid f = l.map (fun c => if c.id = cid then f c else c) :=
  rfl

/-- Updating one investment without touching its identity, campaign,
payment reference, or (on either side of the update) its contribution to
any campaign's Confirmed aggregate preserves well-formedness; the refund
log may change freely. -/
lemma wf_upd_aggregates_stable {st : LedgerState} (h : WF st) {iid : Nat}
    {f : Investment → Investment} {rf : List Nat}
    (hid : ∀ i, (f i).id = i.id)
    (hcamp : ∀ i, (f i).campaignId = i.campaignId)
    (href : ∀ i, (f i).paymentRef = i.paymentRef)
    (hnc : ∀ i ∈ st.investments, i.id = iid →
      ∀ cid, countsFor cid i = false ∧ countsFor cid (f i) = false) :
    WF { st with
          investments := updInvestments st.investments iid f,
          refunds := rf } := by
  have hg : ∀ i ∈ st.investments, ∀ cid,
      countsFor cid (if i.id = iid then f i else i) = countsFor cid i ∧
      (countsFor cid i = true → (if i.id = iid then f i else i) = i) := by
    intro i hi cid
    by_cases hii : i.id = iid
    · obtain ⟨h1, h2⟩ := hnc i hi hii cid
      simp [hii, h1, h2]
    · simp [hii]
  constructor
  · exact h.campIdsNodup
  · exact h.campIdsLt
  · dsimp only
    rw [updInvestments_map_id (fun i => by
      by_cases hii : i.id = iid <;> simp [hii, hid])]
    exact h.invIdsNodup
  · intro i hi
    dsimp only at hi ⊢
    obtain ⟨j, hj, rfl⟩ := mem_updInvestments hi
    have hlt := h.invIdsLt j hj
    by_cases hjj : j.id = iid
    · rw [if_pos hjj, hid j]
      exact hlt
    · rw [if_neg hjj]
      exact hlt
  · intro i hi
    dsimp only at hi ⊢
    obtain ⟨j, hj, rfl⟩ := mem_updInvestments hi
    have hlt := h.invCampLt j hj
    by_cases hjj : j.id = iid
    · rw [if_pos hjj, hcamp j]
      exact hlt
    · rw [if_neg hjj]
      exact hlt
  · intro c hc
    dsimp only at hc ⊢
    rw [updInvestments_eq,
      confirmedSum_map_stable (fun i hi => hg i hi c.id)]
    exact h.raisedEq c hc
  · intro c hc
    dsimp only at hc ⊢
    rw [updInvestments_eq,
      confirmedInvestors_map_stable (fun i hi => hg i hi c.id)]
    exact h.countEq c hc
  · dsimp only
    rw [updInvestments_eq, refsOf_map_stable (fun i _ => by
      by_cases hii : i.id = iid <;> simp [hii, href])]
    exact h.refsNodup

/-- Updating campaigns without touching identity or the derived
aggregates preserves well-formedness. -/
lemma wf_updCampaigns_stable {st : LedgerState} (h : WF st) {cid : Nat}
    {g : Campaign → Campaign}
    (hid : ∀ c, (g c).id = c.id)
    (hr : ∀ c, (g c).raised = c.raised)
    (hcnt : ∀ c, (g c).investorCount = c.investorCount) :
    WF { st with campaigns := updCampaigns st.campaigns cid g } := by
  constructor
  · dsimp only
    rw [updCampaigns_map_id (fun c => by
      by_cases hcc : c.id = cid <;> simp [hcc, hid])]
    exact h.campIdsNodup
  · intro c hc
    dsimp only at hc ⊢
    obtain ⟨c0, hc0, rfl⟩ := mem_updCampaigns hc
    have hlt := h.campIdsLt c0 hc0
    by_cases hcc : c0.id = cid
    · rw [if_pos hcc, hid c0]
      exact hlt
    · rw [if_neg hcc]
      exact hlt
  · exact h.invIdsNodup
  · exact h.invIdsLt
  · exact h.invCampLt
  · intro c hc
    dsimp only at hc ⊢
    obtain ⟨c0, hc0, rfl⟩ := mem_updCampaigns hc
    have heq := h.raisedEq c0 hc0
    by_cases hcc : c0.id = cid
    · rw [if_pos hcc, hr c0, hid c0]
      exact heq
    · rw [if_neg hcc]
      exact heq
  · intro c hc
    dsimp only at hc ⊢
    obtain ⟨c0, hc0, rfl⟩ := mem_updCampaigns hc
    have heq := h.countEq c0 hc0
    by_cases hcc : c0.id = cid
    · rw [if_pos hcc, hcnt c0, hid c0]
      exact heq
    · rw [if_neg hcc]
      exact heq
  · exact h.refsNodup

lemma wf_createCampaign {st : LedgerState} (h : WF st)
    {p : Nat} {t mi : Int} {ma : Option Int} {s e : Int} {st2 : LedgerState}
    (hok : createCampaign st p t mi ma s e = .ok st2) : WF st2 := by
  unfold createCampaign at hok
  split at hok
  · exact absurd hok (by simp)
  split at hok
  · exact absurd hok (by simp)
  split at hok
  · exact absurd hok (by simp)
  split at hok
  · exact absurd hok (by simp)
  split at hok
  · exact absurd hok (by simp)
  injection hok with hok
  subst hok
  constructor
  · dsimp only
    simp only [List.map_append, List.map_cons, List.map_nil]
    rw [List.nodup_append]
    refine ⟨h.campIdsNodup, List.nodup_singleton _, List.disjoint_left.mpr ?_⟩
    intro a ha
    simp only [List.mem_map] at ha
    obtain ⟨c, hc, rfl⟩ := ha
    have := h.campIdsLt c hc
    simp only [List.mem_singleton, freshCampaign]
    omega
  · intro c hc
    dsimp only at hc ⊢
    rcases List.mem_append.mp hc with hc | hc
    · have := h.campIdsLt c hc
      omega
    · simp only [List.mem_singleton] at hc
      subst hc
      simp [freshCampaign]
  · exact h.invIdsNodup
  · exact h.invIdsLt
  · intro i hi
    have := h.invCampLt i hi
    dsimp only
    omega
  · intro c hc
    dsimp only at hc ⊢
    rcases List.mem_append.mp hc with hc | hc
    · exact h.raisedEq c hc
    · simp only [List.mem_singleton] at hc
      subst hc
      simp only [freshCampaign]
      symm
      apply confirmedSum_eq_zero
      intro i hi
      have hne : i.campaignId ≠ st.nextCampaignId := by
        have := h.invCampLt i hi
        omega
      simp [countsFor, hne]
  · intro c hc
    dsimp only at hc ⊢
    rcases List.mem_append.mp hc with hc | hc
    · exact h.countEq c hc
    · simp only [List.mem_singleton] at hc
      subst hc
      simp only [freshCampaign]
      symm
      apply confirmedInvestors_eq_zero
      intro i hi
      have hne : i.campaignId ≠ st.nextCampaignId := by
        have := h.invCampLt i hi
        omega
      simp [countsFor, hne]
  · exact h.refsNodup

lemma wf_startCampaign {st : LedgerState} (h : WF st) {cid : Nat}
    {st2 : LedgerState} (hok : startCampaign st cid = .ok st2) : WF st2 := by
  unfold startCampaign at hok
  split at hok
  · exact absurd hok (by simp)
  split at hok
  · injection hok with hok
    subst hok
    exact wf_updCampaigns_stable h (fun c => rfl) (fun c => rfl) (fun c => rfl)
  · exact absurd hok (by simp)

lemma wf_createInvestment {st : LedgerState} (h : WF st)
    {cid uid : Nat} {amount now : Int} {st2 : LedgerState}
    (hok : createInvestment st cid uid amount now = .ok st2) : WF st2 := by
  unfold createInvestment at hok
  split at hok
  · exact absurd hok (by simp)
  case _ c hc =>
    have hcs := findCampaign_spec hc
    split at hok
    · exact absurd hok (by simp)
    split at hok
    · exact absurd hok (by simp)
    split at hok
    · exact absurd hok (by simp)
    split at hok
    · exact absurd hok (by simp)
    injection hok with hok
    subst hok
    constructor
    · exact h.campIdsNodup
    · exact h.campIdsLt
    · dsimp only
      simp only [List.map_append, List.map_cons, List.map_nil]
      rw [List.nodup_append]
      refine ⟨h.invIdsNodup, List.nodup_singleton _, List.disjoint_left.mpr ?_⟩
      intro a ha
      simp only [List.mem_map] at ha
      obtain ⟨i, hi, rfl⟩ := ha
      have := h.invIdsLt i hi
      simp only [List.mem_singleton, freshInvestment]
      omega
    · intro i hi
      dsimp only at hi ⊢
      rcases List.mem_append.mp hi with hi | hi
      · have := h.invIdsLt i hi
        omega
      · simp only [List.mem_singleton] at hi
        subst hi
        simp [freshInvestment]
    · intro i hi
      dsimp only at hi ⊢
      rcases List.mem_append.mp hi with hi | hi
      · exact h.invCampLt i hi
      · simp only [List.mem_singleton] at hi
        subst hi
        simp only [freshInvestment]
        have := h.campIdsLt _ hcs.1
        omega
    · intro c2 hc2
      dsimp only at hc2 ⊢
      rw [confirmedSum_append]
      have hz : confirmedSum [freshInvestment st.nextInvestmentId uid cid
          amount] c2.id = 0 := by
        apply confirmedSum_eq_zero
        intro i hi
        simp only [List.mem_singleton] at hi
        subst hi
        simp [countsFor, freshInvestment]
      rw [hz, add_zero]
      exact h.raisedEq c2 hc2
    · intro c2 hc2
      dsimp only at hc2 ⊢
      have hfil : (st.investments ++
          [freshInvestment st.nextInvestmentId uid cid amount]).filter
            (countsFor c2.id) = st.investments.filter (countsFor c2.id) := by
        rw [List.filter_append]
        have hnil : ([freshInvestment st.nextInvestmentId uid cid
            amount] : List Investment).filter (countsFor c2.id) = [] := by
          apply List.filter_eq_nil_iff.mpr
          intro i hi
          simp only [List.mem_singleton] at hi
          subst hi
          simp [countsFor, freshInvestment]
        rw [hnil, List.append_nil]
      unfold confirmedInvestors
      rw [hfil]
      exact h.countEq c2 hc2
    · dsimp only
      rw [refsOf_append]
      have hnil : refsOf [freshInvestment st.nextInvestmentId uid cid
          amount] = [] := rfl
      rw [hnil, List.append_nil]
      exact h.refsNodup

lemma refsOf_cons (i : Investment) (t : List Investment) :
    refsOf (i :: t) =
      match i.paymentRef with
      | some r => r :: refsOf t
      | none => refsOf t := by
  cases h : i.paymentRef <;> simp [refsOf, List.filterMap_cons, h]

lemma mem_refsOf {r : Nat} {l : List Investment} :
    r ∈ refsOf l ↔ ∃ i ∈ l, i.paymentRef = some r := by
  simp [refsOf, List.mem_filterMap]

lemma refundUpd_id (cid : Nat) (i : Investment) :
    (refundUpd cid i).id = i.id := by
  obtain ⟨a, b, c, d, s, r⟩ := i
  cases s <;> by_cases h : c = cid <;> simp [refundUpd, h]

lemma refundUpd_campaignId (cid : Nat) (i : Investment) :
    (refundUpd cid i).campaignId = i.campaignId := by
  obtain ⟨a, b, c, d, s, r⟩ := i
  cases s <;> by_cases h : c = cid <;> simp [refundUpd, h]

lemma refundUpd_paymentRef (cid : Nat) (i : Investment) :
    (refundUpd cid i).paymentRef = i.paymentRef := by
  obtain ⟨a, b, c, d, s, r⟩ := i
  cases s <;> by_cases h : c = cid <;> simp [refundUpd, h]

/-- After the failure path no investment of the failed campaign counts
towards its aggregates any more. -/
lemma refundUpd_countsFor_self (cid : Nat) (i : Investment) :
    countsFor cid (refundUpd cid i) = false := by
  obtain ⟨a, b, c, d, s, r⟩ := i
  by_cases h : c = cid
  · cases s <;> simp [refundUpd, h, countsFor]
  · cases s <;> simp [refundUpd, h, countsFor]

lemma refundUpd_countsFor_other {cid cid2 : Nat} (hne : cid2 ≠ cid)
    (i : Investment) :
    countsFor cid2 (refundUpd cid i) = countsFor cid2 i ∧
      (countsFor cid2 i = true → refundUpd cid i = i) := by
  obtain ⟨a, b, c, d, s, r⟩ := i
  by_cases h : c = cid
  · have hcc : (cid == cid2) = false := beq_eq_false_iff_ne.mpr (Ne.symm hne)
    cases s <;> simp [refundUpd, h, countsFor, hcc]
  · cases s <;> simp [refundUpd, h, countsFor]

lemma wf_cancelPending {st : LedgerState} (h : WF st) {iid uid : Nat}
    {st2 : LedgerState} (hok : cancelPending st iid uid = .ok st2) :
    WF st2 := by
  unfold cancelPending at hok
  split at hok
  · exact absurd hok (by simp)
  case _ inv hfind =>
    have hspec := findInvestment_spec hfind
    split at hok
    case isTrue hcond =>
      injection hok with hok
      subst hok
      apply wf_upd_aggregates_stable
        (f := fun i => { i with status := .Cancelled }) h (fun i => rfl)
        (fun i => rfl) (fun i => rfl)
      intro i hi hiid cid
      have hieq : i = inv :=
        inv_eq_of_id_eq h.invIdsNodup hi hspec.1 (by rw [hiid, hspec.2])
      subst hieq
      constructor
      · simp [countsFor, hcond.1]
      · simp [countsFor]
    · exact absurd hok (by simp)

lemma wf_markPaid {st : LedgerState} (h : WF st) {iid ref : Nat}
    {inv2 : Investment} {st2 : LedgerState}
    (hok : markPaid st iid ref = .ok (inv2, st2)) : WF st2 := by
  unfold markPaid at hok
  split at hok
  · exact absurd hok (by simp)
  case _ inv hfind =>
    have hspec := findInvestment_spec hfind
    split at hok
    case _ r hr =>
      split at hok
      · injection hok with hok
        have hst : st2 = st := congrArg Prod.snd hok.symm
        subst hst
        exact h
      · exact absurd hok (by simp)
    case _ hr =>
      split at hok
      · exact absurd hok (by simp)
      case isFalse hany =>
        split at hok
        case isTrue hpend =>
          injection hok with hok
          have hst : st2 =
              { st with
                investments := updInvestments st.investments iid
                  (fun i => { i with
                    status := .Paid, paymentRef := some ref }) } :=
            congrArg Prod.snd hok.symm
          subst hst
          have hnoRef : ∀ j ∈ st.investments, j.paymentRef ≠ some ref := by
            intro j hj hjr
            exact hany (List.any_eq_true.mpr ⟨j, hj, by simp [hjr]⟩)
          obtain ⟨s, t, hl, hupd, hsne, htne⟩ :=
            updInvestments_decomp h.invIdsNodup hspec.1
              (fun i => { i with status := .Paid, paymentRef := some ref })
          rw [hspec.2] at hupd
          constructor
          · exact h.campIdsNodup
          · exact h.campIdsLt
          · dsimp only
            rw [updInvestments_map_id
              (f := fun i => { i with
                status := .Paid, paymentRef := some ref }) (fun i => rfl)]
            exact h.invIdsNodup
          · intro i hi
            dsimp only at hi ⊢
            obtain ⟨j, hj, rfl⟩ := mem_updInvestments hi
            have hlt := h.invIdsLt j hj
            by_cases hjj : j.id = iid
            · rw [if_pos hjj]
              exact hlt
            · rw [if_neg hjj]
              exact hlt
          · intro i hi
            dsimp only at hi ⊢
            obtain ⟨j, hj, rfl⟩ := mem_updInvestments hi
            have hlt := h.invCampLt j hj
            by_cases hjj : j.id = iid
            · rw [if_pos hjj]
              exact hlt
            · rw [if_neg hjj]
              exact hlt
          · intro c hc
            dsimp only at hc ⊢
            rw [updInvestments_eq, confirmedSum_map_stable ?_]
            · exact h.raisedEq c hc
            · intro i hi
              by_cases hii : i.id = iid
              · have hieq : i = inv := inv_eq_of_id_eq h.invIdsNodup hi
                  hspec.1 (by rw [hii, hspec.2])
                subst hieq
                have h2 : countsFor c.id i = false :=
                  countsFor_status_ne (by simp [hpend])
                refine ⟨?_, ?_⟩
                · rw [if_pos hii, h2]
                  exact countsFor_status_ne (by simp)
                · intro hcontra
                  rw [h2] at hcontra
                  cases hcontra
              · simp [hii]
          · intro c hc
            dsimp only at hc ⊢
            rw [updInvestments_eq, confirmedInvestors_map_stable ?_]
            · exact h.countEq c hc
            · intro i hi
              by_cases hii : i.id = iid
              · have hieq : i = inv := inv_eq_of_id_eq h.invIdsNodup hi
                  hspec.1 (by rw [hii, hspec.2])
                subst hieq
                have h2 : countsFor c.id i = false :=
                  countsFor_status_ne (by simp [hpend])
                refine ⟨?_, ?_⟩
                · rw [if_pos hii, h2]
                  exact countsFor_status_ne (by simp)
                · intro hcontra
                  rw [h2] at hcontra
                  cases hcontra
              · simp [hii]
          · dsimp only
            rw [hupd, refsOf_append, refsOf_cons]
            dsimp only
            have hold := h.refsNodup
            rw [hl, refsOf_append, refsOf_cons, hr] at hold
            dsimp only at hold
            rw [List.nodup_middle, List.nodup_cons]
            refine ⟨?_, hold⟩
            intro hmem
            rcases List.mem_append.mp hmem with hm | hm
            · obtain ⟨j, hj, hjr⟩ := mem_refsOf.mp hm
              exact hnoRef j (hl ▸ List.mem_append_left _ hj) hjr
            · obtain ⟨j, hj, hjr⟩ := mem_refsOf.mp hm
              exact hnoRef j
                (hl ▸ List.mem_append_right _ (List.mem_cons_of_mem _ hj)) hjr
        · exact absurd hok (by simp)

lemma map_id_of_preserves {l : List Investment} {g : Investment → Investment}
    (hg : ∀ i, (g i).id = i.id) :
    (l.map g).map (fun i => i.id) = l.map (fun i => i.id) := by
  rw [List.map_map]
  exact List.map_congr_left (fun i _ => hg i)

lemma camp_map_id_of_preserves {l : List Campaign} {g : Campaign → Campaign}
    (hg : ∀ c, (g c).id = c.id) :
    (l.map g).map (fun c => c.id) = l.map (fun c => c.id) := by
  rw [List.map_map]
  exact List.map_congr_left (fun c _ => hg c)

lemma wf_failCampaign {st : LedgerState} (h : WF st) (cid : Nat)
    (final : CampaignStatus) : WF (failCampaign st cid final) := by
  constructor
  · dsimp only [failCampaign]
    rw [updCampaigns_eq, camp_map_id_of_preserves (fun c2 => by
      by_cases hx : c2.id = cid <;> simp [hx])]
    exact h.campIdsNodup
  · intro c hc
    dsimp only [failCampaign] at hc ⊢
    obtain ⟨c0, hc0, rfl⟩ := mem_updCampaigns hc
    have hlt := h.campIdsLt c0 hc0
    by_cases hcc : c0.id = cid
    · rw [if_pos hcc]
      exact hlt
    · rw [if_neg hcc]
      exact hlt
  · dsimp only [failCampaign]
    rw [map_id_of_preserves (refundUpd_id cid)]
    exact h.invIdsNodup
  · intro i hi
    dsimp only [failCampaign] at hi ⊢
    obtain ⟨j, hj, rfl⟩ := List.mem_map.mp hi
    rw [refundUpd_id]
    exact h.invIdsLt j hj
  · intro i hi
    dsimp only [failCampaign] at hi ⊢
    obtain ⟨j, hj, rfl⟩ := List.mem_map.mp hi
    rw [refundUpd_campaignId]
    exact h.invCampLt j hj
  · intro c hc
    dsimp only [failCampaign] at hc ⊢
    obtain ⟨c0, hc0, rfl⟩ := mem_updCampaigns hc
    by_cases hcc : c0.id = cid
    · rw [if_pos hcc]
      show (0 : Int) = confirmedSum (st.investments.map (refundUpd cid)) c0.id
      rw [hcc]
      symm
      apply confirmedSum_eq_zero
      intro j hj
      obtain ⟨j0, hj0, rfl⟩ := List.mem_map.mp hj
      exact refundUpd_countsFor_self cid j0
    · rw [if_neg hcc]
      rw [confirmedSum_map_stable (fun i _ => refundUpd_countsFor_other hcc i)]
      exact h.raisedEq c0 hc0
  · intro c hc
    dsimp only [failCampaign] at hc ⊢
    obtain ⟨c0, hc0, rfl⟩ := mem_updCampaigns hc
    by_cases hcc : c0.id = cid
    · rw [if_pos hcc]
      show 0 = confirmedInvestors (st.investments.map (refundUpd cid)) c0.id
      rw [hcc]
      symm
      apply confirmedInvestors_eq_zero
      intro j hj
      obtain ⟨j0, hj0, rfl⟩ := List.mem_map.mp hj
      exact refundUpd_countsFor_self cid j0
    · rw [if_neg hcc]
      rw [confirmedInvestors_map_stable
        (fun i _ => refundUpd_countsFor_other hcc i)]
      exact h.countEq c0 hc0
  · dsimp only [failCampaign]
    rw [refsOf_map_stable (fun i _ => refundUpd_paymentRef cid i)]
    exact h.refsNodup

lemma wf_settle {st : LedgerState} (h : WF st) {iid : Nat}
    {st2 : LedgerState} (hok : settle st iid = .ok st2) : WF st2 := by
  unfold settle at hok
  split at hok
  · exact absurd hok (by simp)
  case _ inv hfind =>
    have hspec := findInvestment_spec hfind
    split at hok
    case isTrue hpaid =>
      split at hok
      · exact absurd hok (by simp)
      case _ c hfc =>
        have hcs := findCampaign_spec hfc
        split at hok
        case _ hcstat =>
          -- Active: the investment is confirmed and the aggregates updated
          injection hok with hok
          subst hok
          obtain ⟨s, t, hl, hupd, hsne, htne⟩ :=
            updInvestments_decomp h.invIdsNodup hspec.1
              (fun i => { i with status := .Confirmed })
          have hstable : ∀ cid2, cid2 ≠ c.id →
              ∀ i ∈ st.investments,
                countsFor cid2 (if i.id = iid then
                  { i with status := InvStatus.Confirmed } else i) =
                  countsFor cid2 i ∧
                (countsFor cid2 i = true →
                  (if i.id = iid then
                    { i with status := InvStatus.Confirmed } else i) = i) := by
            intro cid2 hne i hi
            by_cases hii : i.id = iid
            · have hieq : i = inv := inv_eq_of_id_eq h.invIdsNodup hi
                hspec.1 (by rw [hii, hspec.2])
              subst hieq
              have hcampne : i.campaignId ≠ cid2 := by
                intro hx
                exact hne (hcs.2.trans hx).symm
              have h2 : countsFor cid2 i = false := countsFor_camp_ne hcampne
              refine ⟨?_, ?_⟩
              · rw [if_pos hii, h2]
                exact countsFor_camp_ne hcampne
              · intro hcontra
                rw [h2] at hcontra
                cases hcontra
            · simp [hii]
          constructor
          · dsimp only
            rw [updCampaigns_eq, camp_map_id_of_preserves (fun c2 => by
              by_cases hx : c2.id = c.id <;> simp [hx])]
            exact h.campIdsNodup
          · intro c2 hc2
            dsimp only at hc2 ⊢
            obtain ⟨c0, hc0, rfl⟩ := mem_updCampaigns hc2
            have hlt := h.campIdsLt c0 hc0
            by_cases hcc : c0.id = c.id
            · rw [if_pos hcc]
              exact hlt
            · rw [if_neg hcc]
              exact hlt
          · dsimp only
            rw [updInvestments_map_id
              (f := fun i => { i with status := InvStatus.Confirmed })
              (fun i => rfl)]
            exact h.invIdsNodup
          · intro i hi
            dsimp only at hi ⊢
            obtain ⟨j, hj, rfl⟩ := mem_updInvestments hi
            have hlt := h.invIdsLt j hj
            by_cases hjj : j.id = iid
            · rw [if_pos hjj]
              exact hlt
            · rw [if_neg hjj]
              exact hlt
          · intro i hi
            dsimp only at hi ⊢
            obtain ⟨j, hj, rfl⟩ := mem_updInvestments hi
            have hlt := h.invCampLt j hj
            by_cases hjj : j.id = iid
            · rw [if_pos hjj]
              exact hlt
            · rw [if_neg hjj]
              exact hlt
          · intro c2 hc2
            dsimp only at hc2 ⊢
            obtain ⟨c0, hc0, rfl⟩ := mem_updCampaigns hc2
            by_cases hcc : c0.id = c.id
            · rw [if_pos hcc]
              have hceq : c0 = c := camp_eq_of_id_eq h.campIdsNodup hc0
                hcs.1 hcc
              subst hceq
              show c0.raised + inv.amount =
                confirmedSum (updInvestments st.investments iid
                  (fun i => { i with status := InvStatus.Confirmed })) c0.id
              have hf : countsFor c0.id inv = false :=
                countsFor_status_ne (by simp [hpaid])
              have htrue : countsFor c0.id
                  { inv with status := InvStatus.Confirmed } = true := by
                apply countsFor_true_iff.mpr
                exact ⟨hcs.2.symm, rfl⟩
              have hold := h.raisedEq c0 hc0
              rw [hl, confirmedSum_append, confirmedSum_cons, hf] at hold
              rw [← hspec.2, hupd, confirmedSum_append, confirmedSum_cons,
                htrue]
              simp only [if_true, Bool.false_eq_true, if_false, zero_add]
                at hold ⊢
              omega
            · rw [if_neg hcc]
              rw [updInvestments_eq,
                confirmedSum_map_stable (hstable c0.id hcc)]
              exact h.raisedEq c0 hc0
          · intro c2 hc2
            dsimp only at hc2 ⊢
            obtain ⟨c0, hc0, rfl⟩ := mem_updCampaigns hc2
            by_cases hcc : c0.id = c.id
            · rw [if_pos hcc]
            · rw [if_neg hcc]
              rw [updInvestments_eq,
                confirmedInvestors_map_stable (hstable c0.id hcc)]
              exact h.countEq c0 hc0
          · dsimp only
            rw [updInvestments_eq, refsOf_map_stable (fun i _ => by
              by_cases hii : i.id = iid <;> simp [hii])]
            exact h.refsNodup
        case _ hcstat =>
          -- Pending campaign: the paid investment is cancelled
          injection hok with hok
          subst hok
          apply wf_upd_aggregates_stable
            (f := fun i => { i with status := .Cancelled }) h (fun i => rfl)
            (fun i => rfl) (fun i => rfl)
          intro i hi hiid cid
          have hieq : i = inv :=
            inv_eq_of_id_eq h.invIdsNodup hi hspec.1 (by rw [hiid, hspec.2])
          subst hieq
          refine ⟨countsFor_status_ne (by simp [hpaid]),
            countsFor_status_ne (by simp)⟩
        case _ =>
          -- terminal campaign: the paid investment is routed to refund
          injection hok with hok
          subst hok
          apply wf_upd_aggregates_stable
            (f := fun i => { i with status := .Refunded }) h (fun i => rfl)
            (fun i => rfl) (fun i => rfl)
          intro i hi hiid cid
          have hieq : i = inv :=
            inv_eq_of_id_eq h.invIdsNodup hi hspec.1 (by rw [hiid, hspec.2])
          subst hieq
          refine ⟨countsFor_status_ne (by simp [hpaid]),
            countsFor_status_ne (by simp)⟩
    case isFalse =>
      injection hok with hok
      subst hok
      exact h

lemma wf_evaluateExpiry {st : LedgerState} (h : WF st) {cid : Nat}
    {now : Int} {st2 : LedgerState}
    (hok : evaluateExpiry st cid now = .ok st2) : WF st2 := by
  unfold evaluateExpiry at hok
  split at hok
  · exact absurd hok (by simp)
  split at hok
  · injection hok with hok
    subst hok
    exact h
  split at hok
  · split at hok
    · injection hok with hok
      subst hok
      exact wf_updCampaigns_stable h (fun c0 => rfl) (fun c0 => rfl)
        (fun c0 => rfl)
    · injection hok with hok
      subst hok
      exact wf_failCampaign h cid .Failed
  · injection hok with hok
    subst hok
    exact h

lemma wf_closeEarly {st : LedgerState} (h : WF st) {cid : Nat}
    {st2 : LedgerState} (hok : closeEarly st cid = .ok st2) : WF st2 := by
  unfold closeEarly at hok
  split at hok
  · exact absurd hok (by simp)
  split at hok
  · injection hok with hok
    subst hok
    exact h
  split at hok
  · split at hok
    · injection hok with hok
      subst hok
      exact wf_updCampaigns_stable h (fun c0 => rfl) (fun c0 => rfl)
        (fun c0 => rfl)
    · injection hok with hok
      subst hok
      exact wf_failCampaign h cid .Failed
  · injection hok with hok
    subst hok
    exact h

lemma wf_cancelCampaign {st : LedgerState} (h : WF st) {cid : Nat}
    {st2 : LedgerState} (hok : cancelCampaign st cid = .ok st2) : WF st2 := by
  unfold cancelCampaign at hok
  split at hok
  · exact absurd hok (by simp)
  split at hok
  · injection hok with hok
    subst hok
    exact wf_updCampaigns_stable h (fun c0 => rfl) (fun c0 => rfl)
      (fun c0 => rfl)
  · injection hok with hok
    subst hok
    exact wf_failCampaign h cid .Cancelled
  · exact absurd hok (by simp)

/-- Every operation, successful or failed, leaves the ledger well-formed:
this is the heart of the aggregate-consistency invariant. -/
lemma wf_applyOp {st : LedgerState} (h : WF st) (op : Op) :
    WF (applyOp st op) := by
  cases op with
  | createCampaign p t mi ma s e =>
    dsimp only [applyOp]
    cases hok : createCampaign st p t mi ma s e with
    | ok st2 => exact wf_createCampaign h hok
    | error e2 => exact h
  | startCampaign cid =>
    dsimp only [applyOp]
    cases hok : startCampaign st cid with
    | ok st2 => exact wf_startCampaign h hok
    | error e2 => exact h
  | createInvestment cid uid a now =>
    dsimp only [applyOp]
    cases hok : createInvestment st cid uid a now with
    | ok st2 => exact wf_createInvestment h hok
    | error e2 => exact h
  | markPaid iid ref =>
    dsimp only [applyOp]
    cases hok : markPaid st iid ref with
    | ok pr => exact wf_markPaid h hok
    | error e2 => exact h
  | settle iid =>
    dsimp only [applyOp]
    cases hok : settle st iid with
    | ok st2 => exact wf_settle h hok
    | error e2 => exact h
  | cancelPending iid uid =>
    dsimp only [applyOp]
    cases hok : cancelPending st iid uid with
    | ok st2 => exact wf_cancelPending h hok
    | error e2 => exact h
  | evaluateExpiry cid now =>
    dsimp only [applyOp]
    cases hok : evaluateExpiry st cid now with
    | ok st2 => exact wf_evaluateExpiry h hok
    | error e2 => exact h
  | closeEarly cid =>
    dsimp only [applyOp]
    cases hok : closeEarly st cid with
    | ok st2 => exact wf_closeEarly h hok
    | error e2 => exact h
  | cancelCampaign cid =>
    dsimp only [applyOp]
    cases hok : cancelCampaign st cid with
    | ok st2 => exact wf_cancelCampaign h hok
    | error e2 => exact h

lemma wf_foldl : ∀ (ops : List Op) (st : LedgerState), WF st →
    WF (ops.foldl applyOp st)
  | [], _, h => h
  | op :: ops, st, h => wf_foldl ops (applyOp st op) (wf_applyOp h op)

/-- Every state observable between operations is well-formed. -/
lemma wf_run (ops : List Op) : WF (run ops) :=
  wf_foldl ops initState wf_init

/-! ## Lookup after update, payment-reference uniqueness, status tracking -/

lemma refsOf_cons_some {i : Investment} {r : Nat} (h : i.paymentRef = some r)
    (t : List Investment) : refsOf (i :: t) = r :: refsOf t := by
  simp [refsOf, List.filterMap_cons, h]

lemma find?_map_upd {l : List Campaign} {cid : Nat}
    {f : Campaign → Campaign} (hf : ∀ x, (f x).id = x.id) {c : Campaign}
    (h : l.find? (fun x => x.id == cid) = some c) :
    (l.map (fun x => if x.id = cid then f x else x)).find?
      (fun x => x.id == cid) = some (f c) := by
  induction l with
  | nil => simp at h
  | cons a l ih =>
    rw [List.find?_cons] at h
    by_cases ha : a.id = cid
    · have hpa : (a.id == cid) = true := by simp [ha]
      rw [hpa] at h
      injection h with h
      subst h
      rw [List.map_cons, if_pos ha, List.find?_cons]
      have hpf : ((f a).id == cid) = true := by simp [hf, ha]
      rw [hpf]
    · have hpa : (a.id == cid) = false := by simp [ha]
      rw [hpa] at h
      rw [List.map_cons, if_neg ha, List.find?_cons, hpa]
      exact ih h

lemma findCampaign_upd {st : LedgerState} {cid : Nat}
    {f : Campaign → Campaign} (hf : ∀ x, (f x).id = x.id) {c : Campaign}
    (hc : findCampaign st cid = some c) :
    findCampaign { st with campaigns := updCampaigns st.campaigns cid f }
      cid = some (f c) := by
  unfold findCampaign at hc ⊢
  dsimp only
  rw [updCampaigns_eq]
  exact find?_map_upd hf hc

/-- In a state whose payment references are pairwise distinct, two
investments bearing the same reference are the same record: the
storage-layer double-spend guard of spec §6. -/
lemma refs_unique {l : List Investment} (hn : (refsOf l).Nodup)
    {i j : Investment} (hi : i ∈ l) (hj : j ∈ l) {r : Nat}
    (hir : i.paymentRef = some r) (hjr : j.paymentRef = some r) : i = j := by
  by_contra hne
  obtain ⟨s, t, rfl⟩ := List.append_of_mem hi
  have hj2 : j ∈ s ++ t := by
    rcases List.mem_append.mp hj with hjs | hjt
    · exact List.mem_append_left _ hjs
    · rcases List.mem_cons.mp hjt with hji | hjt2
      · exact absurd hji.symm hne
      · exact List.mem_append_right _ hjt2
  rw [refsOf_append, refsOf_cons_some hir, List.nodup_middle,
    List.nodup_cons] at hn
  apply hn.1
  rw [← refsOf_append]
  exact mem_refsOf.mpr ⟨j, hj2, hjr⟩

lemma stepOK_refl (s : InvStatus) : stepOK s s = true := by
  cases s <;> rfl

lemma stepOK_refundUpd (cid : Nat) (i : Investment) :
    stepOK i.status (refundUpd cid i).status = true := by
  obtain ⟨a, b, c, d, s, r⟩ := i
  by_cases h : c = cid <;> cases s <;> simp [refundUpd, h, stepOK]

/-- After one operation, an investment with the same id as a stored one is
related to it by an allowed lifecycle step, in each of the three shapes an
operation can leave the store in. -/
lemma status_step_cases {st : LedgerState} (h : WF st)
    {l2 : List Investment}
    (hcase : l2 = st.investments ∨
      (∃ x, l2 = st.investments ++ [x] ∧ ∀ i ∈ st.investments, i.id ≠ x.id) ∨
      (∃ g, l2 = st.investments.map g ∧ (∀ i, (g i).id = i.id) ∧
        ∀ i ∈ st.investments, stepOK i.status (g i).status = true)) :
    ∀ i ∈ st.investments, ∀ j ∈ l2, j.id = i.id →
      stepOK i.status j.status = true := by
  intro i hi j hj hij
  rcases hcase with rfl | ⟨x, rfl, hx⟩ | ⟨g, rfl, hgid, hg⟩
  · have : j = i := inv_eq_of_id_eq h.invIdsNodup hj hi hij
    subst this
    exact stepOK_refl _
  · rcases List.mem_append.mp hj with hj2 | hj2
    · have : j = i := inv_eq_of_id_eq h.invIdsNodup hj2 hi hij
      subst this
      exact stepOK_refl _
    · simp only [List.mem_singleton] at hj2
      subst hj2
      exact absurd hij.symm (hx i hi)
  · obtain ⟨i0, hi0, rfl⟩ := List.mem_map.mp hj
    have hid : i0.id = i.id := by
      rw [← hgid i0]
      exact hij
    have : i0 = i := inv_eq_of_id_eq h.invIdsNodup hi0 hi hid
    subst this
    exact hg i0 hi0

/-- Case analysis of what one operation does to the investment store:
nothing, append a fresh record, or rewrite records pointwise along allowed
lifecycle steps. -/
lemma applyOp_investments {st : LedgerState} (h : WF st) (op : Op) :
    (applyOp st op).investments = st.investments ∨
    (∃ x, (applyOp st op).investments = st.investments ++ [x] ∧
      ∀ i ∈ st.investments, i.id ≠ x.id) ∨
    (∃ g, (applyOp st op).investments = st.investments.map g ∧
      (∀ i, (g i).id = i.id) ∧
      ∀ i ∈ st.investments, stepOK i.status (g i).status = true) := by
  cases op with
  | createCampaign p t mi ma s e =>
    left
    dsimp only [applyOp]
    cases hok : createCampaign st p t mi ma s e with
    | ok st2 =>
      unfold createCampaign at hok
      split at hok
      · exact absurd hok (by simp)
      split at hok
      · exact absurd hok (by simp)
      split at hok
      · exact absurd hok (by simp)
      split at hok
      · exact absurd hok (by simp)
      split at hok
      · exact absurd hok (by simp)
      injection hok with hok
      subst hok
      rfl
    | error e2 => rfl
  | startCampaign cid =>
    left
    dsimp only [applyOp]
    cases hok : startCampaign st cid with
    | ok st2 =>
      unfold startCampaign at hok
      split at hok
      · exact absurd hok (by simp)
      split at hok
      · injection hok with hok
        subst hok
        rfl
      · exact absurd hok (by simp)
    | error e2 => rfl
  | createInvestment cid uid a now =>
    dsimp only [applyOp]
    cases hok : createInvestment st cid uid a now with
    | ok st2 =>
      right
      left
      unfold createInvestment at hok
      split at hok
      · exact absurd hok (by simp)
      split at hok
      · exact absurd hok (by simp)
      split at hok
      · exact absurd hok (by simp)
      split at hok
      · exact absurd hok (by simp)
      split at hok
      · exact absurd hok (by simp)
      injection hok with hok
      subst hok
      refine ⟨freshInvestment st.nextInvestmentId uid cid a, rfl, ?_⟩
      intro i hi
      have := h.invIdsLt i hi
      simp only [freshInvestment]
      omega
    | error e2 => exact Or.inl rfl
  | markPaid iid ref =>
    dsimp only [applyOp]
    cases hok : markPaid st iid ref with
    | ok pr =>
      unfold markPaid at hok
      split at hok
      · exact absurd hok (by simp)
      case _ inv hfind =>
        have hspec := findInvestment_spec hfind
        split at hok
        case _ r hr =>
          split at hok
          · injection hok with hok
            subst hok
            left
            rfl
          · exact absurd hok (by simp)
        case _ hr =>
          split at hok
          · exact absurd hok (by simp)
          split at hok
          case isTrue hpend =>
            injection hok with hok
            subst hok
            right
            right
            refine ⟨fun i => if i.id = iid then
              { i with status := .Paid, paymentRef := some ref } else i,
              rfl, ?_, ?_⟩
            · intro i
              by_cases hii : i.id = iid <;> simp [hii]
            · intro i hi
              by_cases hii : i.id = iid
              · have hieq : i = inv := inv_eq_of_id_eq h.invIdsNodup hi
                  hspec.1 (by rw [hii, hspec.2])
                subst hieq
                simp [hii, hpend, stepOK]
              · simp [hii, stepOK_refl]
          · exact absurd hok (by simp)
    | error e2 => exact Or.inl rfl
  | settle iid =>
    dsimp only [applyOp]
    cases hok : settle st iid with
    | ok st2 =>
      unfold settle at hok
      split at hok
      · exact absurd hok (by simp)
      case _ inv hfind =>
        have hspec := findInvestment_spec hfind
        split at hok
        case isTrue hpaid =>
          split at hok
          · exact absurd hok (by simp)
          case _ c hfc =>
            have hstep : ∀ s2 : InvStatus, stepOK InvStatus.Paid s2 = true →
                ∀ i ∈ st.investments,
                  stepOK i.status ((fun i0 => if i0.id = iid then
                    { i0 with status := s2 } else i0) i).status = true := by
              intro s2 hs2 i hi
              by_cases hii : i.id = iid
              · have hieq : i = inv := inv_eq_of_id_eq h.invIdsNodup hi
                  hspec.1 (by rw [hii, hspec.2])
                subst hieq
                simpa [hii, hpaid] using hs2
              · simp [hii, stepOK_refl]
            split at hok
            · injection hok with hok
              subst hok
              right
              right
              exact ⟨_, rfl, fun i => by
                by_cases hii : i.id = iid <;> simp [hii],
                hstep .Confirmed rfl⟩
            · injection hok with hok
              subst hok
              right
              right
              exact ⟨_, rfl, fun i => by
                by_cases hii : i.id = iid <;> simp [hii],
                hstep .Cancelled rfl⟩
            · injection hok with hok
              subst hok
              right
              right
              exact ⟨_, rfl, fun i => by
                by_cases hii : i.id = iid <;> simp [hii],
                hstep .Refunded rfl⟩
        case isFalse =>
          injection hok with hok
          subst hok
          exact Or.inl rfl
    | error e2 => exact Or.inl rfl
  | cancelPending iid uid =>
    dsimp only [applyOp]
    cases hok : cancelPending st iid uid with
    | ok st2 =>
      unfold cancelPending at hok
      split at hok
      · exact absurd hok (by simp)
      case _ inv hfind =>
        have hspec := findInvestment_spec hfind
        split at hok
        case isTrue hcond =>
          injection hok with hok
          subst hok
          right
          right
          refine ⟨_, rfl, fun i => by
            by_cases hii : i.id = iid <;> simp [hii], ?_⟩
          intro i hi
          by_cases hii : i.id = iid
          · have hieq : i = inv := inv_eq_of_id_eq h.invIdsNodup hi
              hspec.1 (by rw [hii, hspec.2])
            subst hieq
            simp [hii, hcond.1, stepOK]
          · simp [hii, stepOK_refl]
        · exact absurd hok (by simp)
    | error e2 => exact Or.inl rfl
  | evaluateExpiry cid now =>
    dsimp only [applyOp]
    cases hok : evaluateExpiry st cid now with
    | ok st2 =>
      unfold evaluateExpiry at hok
      split at hok
      · exact absurd hok (by simp)
      split at hok
      · injection hok with hok
        subst hok
        exact Or.inl rfl
      split at hok
      · split at hok
        · injection hok with hok
          subst hok
          exact Or.inl rfl
        · injection hok with hok
          subst hok
          right
          right
          exact ⟨refundUpd cid, rfl, refundUpd_id cid,
            fun i _ => stepOK_refundUpd cid i⟩
      · injection hok with hok
        subst hok
        exact Or.inl rfl
    | error e2 => exact Or.inl rfl
  | closeEarly cid =>
    dsimp only [applyOp]
    cases hok : closeEarly st cid with
    | ok st2 =>
      unfold closeEarly at hok
      split at hok
      · exact absurd hok (by simp)
      split at hok
      · injection hok with hok
        subst hok
        exact Or.inl rfl
      split at hok
      · split at hok
        · injection hok with hok
          subst hok
          exact Or.inl rfl
        · injection hok with hok
          subst hok
          right
          right
          exact ⟨refundUpd cid, rfl, refundUpd_id cid,
            fun i _ => stepOK_refundUpd cid i⟩
      · injection hok with hok
        subst hok
        exact Or.inl rfl
    | error e2 => exact Or.inl rfl
  | cancelCampaign cid =>
    dsimp only [applyOp]
    cases hok : cancelCampaign st cid with
    | ok st2 =>
      unfold cancelCampaign at hok
      split at hok
      · exact absurd hok (by simp)
      split at hok
      · injection hok with hok
        subst hok
        exact Or.inl rfl
      · injection hok with hok
        subst hok
        right
        right
        exact ⟨refundUpd cid, rfl, refundUpd_id cid,
          fun i _ => stepOK_refundUpd cid i⟩
      · exact absurd hok (by simp)
    | error e2 => exact Or.inl rfl

/-- One operation moves every stored investment along at most one allowed
lifecycle step. -/
lemma status_step {st : LedgerState} (h : WF st) (op : Op) :
    ∀ i ∈ st.investments, ∀ j ∈ (applyOp st op).investments,
      j.id = i.id → stepOK i.status j.status = true :=
  status_step_cases h (applyOp_investments h op)

lemma findCampaign_eq (st : LedgerState) (cid : Nat) :
    findCampaign st cid = st.campaigns.find? (fun c => c.id == cid) := rfl

lemma refundUpd_investorId (cid : Nat) (i : Investment) :
    (refundUpd cid i).investorId = i.investorId := by
  obtain ⟨a, b, c, d, s, r⟩ := i
  cases s <;> by_cases h : c = cid <;> simp [refundUpd, h]

lemma refundUpd_amount (cid : Nat) (i : Investment) :
    (refundUpd cid i).amount = i.amount := by
  obtain ⟨a, b, c, d, s, r⟩ := i
  cases s <;> by_cases h : c = cid <;> simp [refundUpd, h]

lemma refundUpd_refund {cid : Nat} {i : Investment}
    (hcamp : i.campaignId = cid)
    (hs : i.status = .Confirmed ∨ i.status = .Paid) :
    (refundUpd cid i).status = .Refunded := by
  obtain ⟨a, b, c, d, s, r⟩ := i
  simp only at hcamp
  rcases hs with hs | hs <;> simp only at hs <;> subst hs <;>
    simp [refundUpd, hcamp]

lemma refundUpd_cancel {cid : Nat} {i : Investment}
    (hcamp : i.campaignId = cid) (hs : i.status = .Pending) :
    (refundUpd cid i).status = .Cancelled := by
  obtain ⟨a, b, c, d, s, r⟩ := i
  simp only at hcamp hs
  subst hs
  simp [refundUpd, hcamp]

lemma refundUpd_no_paid {cid : Nat} {i : Investment}
    (hcamp : i.campaignId = cid) : (refundUpd cid i).status ≠ .Paid := by
  obtain ⟨a, b, c, d, s, r⟩ := i
  simp only at hcamp
  cases s <;> simp [refundUpd, hcamp]

/-! ## The claims -/

/-- C9: For every end time, the days-remaining value computed for a
crowdfunding card is never negative: `getDaysRemaining` returns the
ceiling of the time difference in days when the end time is in the future
(characterized below by the two bounds that pin down the integer ceiling
of `(endTime - now) / msPerDay`) and returns exactly 0 for any end time at
or before now. -/
theorem getDaysRemaining_spec (endTime now : Int) :
    0 ≤ getDaysRemaining endTime now ∧
    (endTime ≤ now → getDaysRemaining endTime now = 0) ∧
    (now < endTime →
      endTime - now ≤ getDaysRemaining endTime now * msPerDay ∧
      (getDaysRemaining endTime now - 1) * msPerDay < endTime - now) := by
  have hd : msPerDay = 86400000 := by norm_num [msPerDay]
  unfold getDaysRemaining
  rw [hd]
  refine ⟨le_max_left _ _, ?_, ?_⟩
  · intro hle
    apply max_eq_left
    omega
  · intro hlt
    have h0 : 0 ≤ -((now - endTime) / 86400000) := by omega
    rw [max_eq_right h0]
    constructor <;> omega

/-- C9 witness: one day and one millisecond ahead rounds up to 2 days;
the bound `2 * msPerDay ≥ 86400001` is obtained from the theorem. -/
theorem getDaysRemaining_spec_check :
    (0 : Int) < 86400001 ∧
    getDaysRemaining 86400001 0 = 2 ∧
    (86400001 : Int) - 0 ≤ getDaysRemaining 86400001 0 * msPerDay :=
  ⟨by decide, by decide, ((getDaysRemaining_spec 86400001 0).2.2 (by decide)).1⟩

/-- C10: For every current amount ≥ 0 and target amount > 0, the funding
progress percentage computed by `getProgressPercentage` equals
`min((current/target)·100, 100)`: it never exceeds 100, never goes
negative, shows the exact ratio while the campaign is at or below target,
and is clamped to exactly 100 once the campaign is overfunded past its
target. -/
theorem getProgressPercentage_spec (current target : ℚ)
    (hc : 0 ≤ current) (ht : 0 < target) :
    getProgressPercentage current target =
      min (current / target * 100) 100 ∧
    getProgressPercentage current target ≤ 100 ∧
    0 ≤ getProgressPercentage current target ∧
    (current ≤ target →
      getProgressPercentage current target = current / target * 100) ∧
    (target < current → getProgressPercentage current target = 100) := by
  refine ⟨rfl, min_le_right _ _, le_min (by positivity) (by norm_num),
    ?_, ?_⟩
  · intro hle
    apply min_eq_left
    have h1 : current / target ≤ 1 := by
      rw [div_le_one ht]
      exact hle
    nlinarith
  · intro hlt
    apply min_eq_right
    have h1 : (1 : ℚ) ≤ current / target := (one_le_div ht).mpr hlt.le
    nlinarith

/-- C10 witness: an overfunded campaign (150 raised of 100) is clamped to
exactly 100 percent. -/
theorem getProgressPercentage_spec_check :
    (0 : ℚ) ≤ 150 ∧ (0 : ℚ) < 100 ∧
    getProgressPercentage 150 100 = 100 :=
  ⟨by decide, by decide,
    (getProgressPercentage_spec 150 100 (by decide) (by decide)).2.2.2.2
      (by decide)⟩

/-- C1: For every campaign and at every state observable between
operations (any state reachable by running any sequence of ledger
operations from the empty ledger), the campaign's `raised_amount` equals
the sum of `amount` over that campaign's investments whose status is
Confirmed, and `investor_count` equals the number of distinct investor
ids among those Confirmed investments; no operation breaks this
correspondence. -/
theorem aggregates_consistent (ops : List Op) :
    ∀ c ∈ (run ops).campaigns,
      c.raised = confirmedSum (run ops).investments c.id ∧
      c.investorCount = confirmedInvestors (run ops).investments c.id :=
  fun c hc => ⟨(wf_run ops).raisedEq c hc, (wf_run ops).countEq c hc⟩

/-- C1 witness: in the concrete scenario `opsA` the stored campaign reads
raised 200 and one investor, which the theorem equates with the
derived aggregates of its Confirmed investments. -/
theorem aggregates_consistent_check :
    campA ∈ (run opsA).campaigns ∧
    (campA.raised = confirmedSum (run opsA).investments campA.id ∧
      campA.investorCount =
        confirmedInvestors (run opsA).investments campA.id) :=
  ⟨by decide, aggregates_consistent opsA campA (by decide)⟩

/-- C2: `markPaid` is idempotent per payment reference: for every
investment the store resolves, calling `markPaid` again with the same
`paymentReference` when the investment already bears that reference and
has status Paid or later returns the existing record unchanged in an
unchanged state — the same investment state, no error, and no second
increment of `raised_amount`. -/
theorem markPaid_idempotent {st : LedgerState} {iid ref : Nat}
    {inv : Investment} (hfind : findInvestment st iid = some inv)
    (href : inv.paymentRef = some ref)
    (_hstatus : inv.status = .Paid ∨ inv.status = .Confirmed ∨
      inv.status = .Refunded) :
    markPaid st iid ref = .ok (inv, st) := by
  unfold markPaid
  rw [hfind]
  simp [href]

/-- C2 witness: re-delivering reference 55 for the already Confirmed
investment of scenario `opsA` returns it unchanged with the state
untouched. -/
theorem markPaid_idempotent_check :
    findInvestment (run opsA) 0 = some invA ∧
    invA.paymentRef = some 55 ∧
    markPaid (run opsA) 0 55 = .ok (invA, run opsA) :=
  ⟨by decide, by decide,
    markPaid_idempotent (by decide) (by decide)
      (Or.inr (Or.inl (by decide)))⟩

/-- C3: double-spend protection: whenever a payment reference is already
attached to some stored investment and `markPaid` is invoked for an
investment that does not bear that reference (in particular any second
call with the same reference but a different investment id), the call
fails with `ConflictError`; and in every reachable state the storage
layer itself keeps payment references unique — two stored investments
bearing the same reference are the same record, which subsumes the unique
constraint on `(campaign_id, payment_reference)` over non-null
references. -/
theorem double_spend_guard (ops : List Op) :
    (∀ iid ref inv, findInvestment (run ops) iid = some inv →
      inv.paymentRef ≠ some ref →
      (∃ j ∈ (run ops).investments, j.paymentRef = some ref) →
      markPaid (run ops) iid ref = .error .ConflictError) ∧
    (∀ i ∈ (run ops).investments, ∀ j ∈ (run ops).investments,
      ∀ r : Nat, i.paymentRef = some r → j.paymentRef = some r → i = j) := by
  constructor
  · intro iid ref inv hfind hne hex
    simp only [markPaid, hfind]
    cases hpr : inv.paymentRef with
    | some r =>
      have hrne : r ≠ ref := fun hr => hne (by rw [hpr, hr])
      simp [hrne]
    | none =>
      have hany : ((run ops).investments.any
          (fun j => j.paymentRef == some ref)) = true := by
        obtain ⟨j, hj, hjr⟩ := hex
        exact List.any_eq_true.mpr ⟨j, hj, by simp [hjr]⟩
      simp [hany]
  · intro i hi j hj r hir hjr
    exact refs_unique (wf_run ops).refsNodup hi hj hir hjr

/-- C3 witness: in scenario `opsB` reference 55 is attached to investment
0; delivering it for investment 1 fails with `ConflictError`. -/
theorem double_spend_guard_check :
    findInvestment (run opsB) 1 = some invB1 ∧
    invB0 ∈ (run opsB).investments ∧
    markPaid (run opsB) 1 55 = .error .ConflictError :=
  ⟨by decide, by decide,
    (double_spend_guard opsB).1 1 55 invB1 (by decide) (by decide)
      ⟨invB0, by decide, by decide⟩⟩

/-- C4: For every Active campaign, expiry evaluation (at `now ≥ end_time`)
and explicit early close both transition the campaign to Succeeded if
`raised_amount ≥ target_amount` and to Failed otherwise; evaluating a
campaign that is already in a terminal state is a no-op (it returns the
state unchanged), not an error. -/
theorem expiry_evaluation (st : LedgerState) {cid : Nat} (now : Int)
    {c : Campaign} (hc : findCampaign st cid = some c) :
    (c.status = .Active → c.endTime ≤ now →
      ∃ st2, evaluateExpiry st cid now = .ok st2 ∧
        campaignStatus st2 cid =
          some (if c.target ≤ c.raised then .Succeeded else .Failed)) ∧
    (c.status = .Active →
      ∃ st2, closeEarly st cid = .ok st2 ∧
        campaignStatus st2 cid =
          some (if c.target ≤ c.raised then .Succeeded else .Failed)) ∧
    (c.status.isTerminal = true →
      evaluateExpiry st cid now = .ok st ∧ closeEarly st cid = .ok st) := by
  refine ⟨?_, ?_, ?_⟩
  · intro ha hend
    have hterm : c.status.isTerminal = false := by
      rw [ha]
      rfl
    simp only [evaluateExpiry, hc, hterm, Bool.false_eq_true, if_false,
      if_pos (And.intro ha hend)]
    by_cases htar : c.target ≤ c.raised
    · rw [if_pos htar, if_pos htar]
      refine ⟨_, rfl, ?_⟩
      unfold campaignStatus
      rw [findCampaign_eq]
      dsimp only
      rw [updCampaigns_eq,
        find?_map_upd (f := fun c0 => { c0 with
          status := CampaignStatus.Succeeded }) (fun x => rfl) hc]
      rfl
    · rw [if_neg htar, if_neg htar]
      refine ⟨_, rfl, ?_⟩
      unfold campaignStatus
      rw [findCampaign_eq]
      dsimp only [failCampaign]
      rw [updCampaigns_eq,
        find?_map_upd (f := fun c0 => { c0 with
          status := CampaignStatus.Failed, raised := 0,
          investorCount := 0 }) (fun x => rfl) hc]
      rfl
  · intro ha
    have hterm : c.status.isTerminal = false := by
      rw [ha]
      rfl
    simp only [closeEarly, hc, hterm, Bool.false_eq_true, if_false,
      if_pos ha]
    by_cases htar : c.target ≤ c.raised
    · rw [if_pos htar, if_pos htar]
      refine ⟨_, rfl, ?_⟩
      unfold campaignStatus
      rw [findCampaign_eq]
      dsimp only
      rw [updCampaigns_eq,
        find?_map_upd (f := fun c0 => { c0 with
          status := CampaignStatus.Succeeded }) (fun x => rfl) hc]
      rfl
    · rw [if_neg htar, if_neg htar]
      refine ⟨_, rfl, ?_⟩
      unfold campaignStatus
      rw [findCampaign_eq]
      dsimp only [failCampaign]
      rw [updCampaigns_eq,
        find?_map_upd (f := fun c0 => { c0 with
          status := CampaignStatus.Failed, raised := 0,
          investorCount := 0 }) (fun x => rfl) hc]
      rfl
  · intro hterm
    constructor
    · simp [evaluateExpiry, hc, hterm]
    · simp [closeEarly, hc, hterm]

/-- C4 witness: the Active campaign of scenario `opsA` (raised 200 of
1000) evaluated past its end time ends Failed; evaluating the resulting
terminal campaign again is a no-op without error. -/
theorem expiry_evaluation_check :
    findCampaign (run opsA) 0 = some campA ∧
    campA.status = .Active ∧ campA.endTime ≤ 200 ∧
    (∃ st2, evaluateExpiry (run opsA) 0 200 = .ok st2 ∧
      campaignStatus st2 0 =
        some (if campA.target ≤ campA.raised then .Succeeded else .Failed)) :=
  ⟨by decide, by decide, by decide,
    (expiry_evaluation (run opsA) 200 (c := campA) (by decide)).1
      (by decide) (by decide)⟩

/-- C5: When a campaign transitions to Failed (expiry below target) or is
explicitly cancelled before reaching its target, both roads lead through
the same failure path; on it, every investment of that campaign keeps its
identity, investor and amount, every Confirmed or Paid one transitions to
Refunded with a refund-initiation request recorded for the external
payment collaborator, every still-Pending one transitions to Cancelled,
and no investment of the campaign is left in Paid. -/
theorem failure_refund_path (st : LedgerState) {cid : Nat} {c : Campaign}
    (hc : findCampaign st cid = some c) (ha : c.status = .Active)
    (hmiss : c.raised < c.target) :
    (∀ now : Int, c.endTime ≤ now →
      evaluateExpiry st cid now = .ok (failCampaign st cid .Failed)) ∧
    cancelCampaign st cid = .ok (failCampaign st cid .Cancelled) ∧
    (∀ final : CampaignStatus, ∀ i ∈ st.investments, i.campaignId = cid →
      ∃ j ∈ (failCampaign st cid final).investments, j.id = i.id ∧
        j.investorId = i.investorId ∧ j.amount = i.amount ∧
        ((i.status = .Confirmed ∨ i.status = .Paid) →
          j.status = .Refunded ∧
          i.id ∈ (failCampaign st cid final).refunds) ∧
        (i.status = .Pending → j.status = .Cancelled)) ∧
    (∀ final : CampaignStatus,
      ∀ j ∈ (failCampaign st cid final).investments,
        j.campaignId = cid → j.status ≠ .Paid) := by
  refine ⟨?_, ?_, ?_, ?_⟩
  · intro now hend
    have hterm : c.status.isTerminal = false := by
      rw [ha]
      rfl
    have hntar : ¬c.target ≤ c.raised := by omega
    simp only [evaluateExpiry, hc, hterm, Bool.false_eq_true, if_false,
      if_pos (And.intro ha hend), if_neg hntar]
  · simp only [cancelCampaign, hc, ha]
  · intro final i hi hicamp
    refine ⟨refundUpd cid i, List.mem_map_of_mem _ hi, refundUpd_id cid i,
      refundUpd_investorId cid i, refundUpd_amount cid i, ?_, ?_⟩
    · intro hs
      refine ⟨refundUpd_refund hicamp hs, ?_⟩
      dsimp only [failCampaign]
      apply List.mem_append_right
      apply List.mem_map_of_mem
      apply List.mem_filter.mpr
      refine ⟨hi, ?_⟩
      rcases hs with hs | hs <;> simp [needsRefund, hicamp, hs]
    · intro hs
      exact refundUpd_cancel hicamp hs
  · intro final j hj hjcamp
    dsimp only [failCampaign] at hj
    obtain ⟨i, hi, rfl⟩ := List.mem_map.mp hj
    apply refundUpd_no_paid
    rw [← refundUpd_campaignId cid i]
    exact hjcamp

/-- C5 witness: failing the campaign of scenario `opsA` refunds its
Confirmed investment of 200 and records the refund initiation. -/
theorem failure_refund_path_check :
    findCampaign (run opsA) 0 = some campA ∧
    invA ∈ (run opsA).investments ∧
    (∃ j ∈ (failCampaign (run opsA) 0 .Failed).investments,
      j.id = invA.id ∧ j.investorId = invA.investorId ∧
      j.amount = invA.amount ∧
      ((invA.status = .Confirmed ∨ invA.status = .Paid) →
        j.status = .Refunded ∧
        invA.id ∈ (failCampaign (run opsA) 0 .Failed).refunds) ∧
      (invA.status = .Pending → j.status = .Cancelled)) :=
  ⟨by decide, by decide,
    (failure_refund_path (run opsA) (c := campA) (by decide)
      (by decide) (by decide)).2.2.1 .Failed invA (by decide) (by decide)⟩

/-- C6: For every call to `createInvestment` resolving its campaign
snapshot at call time, the call fails with `ValidationError` if the
amount lies outside the `[min_investment, max_investment]` bounds of the
snapshot, fails with `InvalidStateError` if the campaign is not Active or
`now` is outside `[start_time, end_time)`, and on success appends a
Pending record carrying the investor, campaign and amount while leaving
the campaigns — and hence all campaign aggregates — untouched. -/
theorem createInvestment_contract (st : LedgerState) {cid : Nat}
    (uid : Nat) (amount now : Int) {c : Campaign}
    (hc : findCampaign st cid = some c) :
    ((amount < c.minInv ∨ aboveMax c.maxInv amount = true) →
      createInvestment st cid uid amount now = .error .ValidationError) ∧
    (c.minInv ≤ amount → aboveMax c.maxInv amount = false →
      (c.status ≠ .Active ∨ now < c.startTime ∨ c.endTime ≤ now) →
      createInvestment st cid uid amount now = .error .InvalidStateError) ∧
    (c.minInv ≤ amount → aboveMax c.maxInv amount = false →
      c.status = .Active → c.startTime ≤ now → now < c.endTime →
      ∃ st2, createInvestment st cid uid amount now = .ok st2 ∧
        st2.campaigns = st.campaigns ∧
        st2.investments = st.investments ++
          [freshInvestment st.nextInvestmentId uid cid amount] ∧
        (freshInvestment st.nextInvestmentId uid cid amount).status =
          .Pending) := by
  refine ⟨?_, ?_, ?_⟩
  · intro hbad
    simp only [createInvestment, hc]
    split_ifs with h1 h2 h3 h4
    · rfl
    · rfl
    · exfalso
      rcases hbad with hb | hb
      · exact h1 hb
      · exact h2 hb
    · exfalso
      rcases hbad with hb | hb
      · exact h1 hb
      · exact h2 hb
    · exfalso
      rcases hbad with hb | hb
      · exact h1 hb
      · exact h2 hb
  · intro hmin hmax hstate
    simp only [createInvestment, hc]
    split_ifs with h1 h2 h3 h4
    · omega
    · exact absurd h2 (by simp [hmax])
    · rfl
    · rfl
    · exfalso
      rcases hstate with hs | hs | hs
      · exact h3 hs
      · exact h4 (Or.inl hs)
      · exact h4 (Or.inr hs)
  · intro hmin hmax hact hstart hend
    simp only [createInvestment, hc]
    split_ifs with h1 h2 h3 h4
    · omega
    · exact absurd h2 (by simp [hmax])
    · exact absurd hact h3
    · omega
    · exact ⟨_, rfl, rfl, rfl, rfl⟩

/-- C6 witness: investing 200 into the Active campaign of scenario `opsA`
inside its bounds and time window succeeds with a Pending record and
untouched campaigns. -/
theorem createInvestment_contract_check :
    findCampaign (run opsA) 0 = some campA ∧
    (∃ st2, createInvestment (run opsA) 0 9 300 50 = .ok st2 ∧
      st2.campaigns = (run opsA).campaigns ∧
      st2.investments = (run opsA).investments ++
        [freshInvestment (run opsA).nextInvestmentId 9 0 300] ∧
      (freshInvestment (run opsA).nextInvestmentId 9 0 300).status =
        .Pending) :=
  ⟨by decide,
    (createInvestment_contract (run opsA) 9 300 50 (c := campA)
      (by decide)).2.2
      (by decide) (by decide) (by decide) (by decide) (by decide)⟩

/-- C7: For every call to `createCampaign`, the call fails with
`ValidationError` if `target ≤ 0`, or `minInvestment ≤ 0`, or
`maxInvestment` is present and less than `minInvestment`, or
`start ≥ end`; and, with valid inputs, it fails with `ConflictError` if
the project already has a non-terminal campaign. -/
theorem createCampaign_contract (st : LedgerState) (p : Nat) (t mi : Int)
    (ma : Option Int) (s e : Int) :
    ((t ≤ 0 ∨ mi ≤ 0 ∨ maxBelowMin ma mi = true ∨ e ≤ s) →
      createCampaign st p t mi ma s e = .error .ValidationError) ∧
    (0 < t → 0 < mi → maxBelowMin ma mi = false → s < e →
      (∃ c ∈ st.campaigns, c.projectId = p ∧ c.status.isTerminal = false) →
      createCampaign st p t mi ma s e = .error .ConflictError) := by
  constructor
  · intro hbad
    unfold createCampaign
    split_ifs with h1 h2 h3 h4 h5
    · rfl
    · rfl
    · rfl
    · rfl
    · exfalso
      rcases hbad with hb | hb | hb | hb
      · exact h1 hb
      · exact h2 hb
      · exact h3 hb
      · exact h4 hb
    · exfalso
      rcases hbad with hb | hb | hb | hb
      · exact h1 hb
      · exact h2 hb
      · exact h3 hb
      · exact h4 hb
  · intro ht hmi hmax hse hex
    obtain ⟨c, hcmem, hcp, hcterm⟩ := hex
    unfold createCampaign
    split_ifs with h1 h2 h3 h4 h5
    · omega
    · omega
    · exact absurd h3 (by simp [hmax])
    · omega
    · rfl
    · exfalso
      apply h5
      exact List.any_eq_true.mpr ⟨c, hcmem, by simp [hcp, hcterm]⟩

/-- C7 witness: creating a second campaign for project 1 of scenario
`opsA`, whose campaign is still Active, fails with `ConflictError`. -/
theorem createCampaign_contract_check :
    campA ∈ (run opsA).campaigns ∧ campA.projectId = 1 ∧
    campA.status.isTerminal = false ∧
    createCampaign (run opsA) 1 500 50 none 0 100 =
      .error .ConflictError :=
  ⟨by decide, by decide, by decide,
    (createCampaign_contract (run opsA) 1 500 50 none 0 100).2 (by decide)
      (by decide) (by decide) (by decide)
      ⟨campA, by decide, by decide, by decide⟩⟩

/-- C8: Every investment's status is always one of Pending, Paid,
Confirmed, Refunded, Cancelled (the five keys the frontend
`statusLabels` record displays); every operation on a reachable state
moves an investment's status only along a permitted lifecycle step:
within the Pending → Paid → Confirmed chain it never skips a step and
never goes backward, Refunded and Cancelled admit no outgoing step (they
are terminal), and Confirmed is not terminal — the scenario exhibits a
Confirmed investment that later becomes Refunded when its campaign
fails. -/
theorem investment_status_machine :
    (∀ ops op, ∀ i ∈ (run ops).investments,
      ∀ j ∈ (applyOp (run ops) op).investments, j.id = i.id →
        stepOK i.status j.status = true) ∧
    (∀ s : InvStatus, s = .Pending ∨ s = .Paid ∨ s = .Confirmed ∨
      s = .Refunded ∨ s = .Cancelled) ∧
    ([InvStatus.Pending, .Paid, .Confirmed, .Refunded, .Cancelled].map
      InvStatus.key = statusLabelKeys) ∧
    (∀ s2, stepOK .Refunded s2 = true → s2 = .Refunded) ∧
    (∀ s2, stepOK .Cancelled s2 = true → s2 = .Cancelled) ∧
    (stepOK .Pending .Confirmed = false ∧ stepOK .Paid .Pending = false ∧
      stepOK .Confirmed .Paid = false ∧
      stepOK .Confirmed .Pending = false) ∧
    (invA ∈ (run opsA).investments ∧ invA.status = .Confirmed ∧
      invA2 ∈ (run (opsA ++ [.evaluateExpiry 0 200])).investments ∧
      invA2.id = invA.id ∧ invA2.status = .Refunded) := by
  refine ⟨?_, ?_, ?_, ?_, ?_, ?_, ?_⟩
  · intro ops op
    exact status_step (wf_run ops) op
  · intro s
    cases s <;> simp
  · rfl
  · intro s2
    cases s2 <;> simp [stepOK]
  · intro s2
    cases s2 <;> simp [stepOK]
  · exact ⟨rfl, rfl, rfl, rfl⟩
  · exact ⟨by decide, rfl, by decide, rfl, rfl⟩

/-- C8 witness: the expiry evaluation that fails the campaign of scenario
`opsA` moves its Confirmed investment to Refunded, an allowed lifecycle
step. -/
theorem investment_status_machine_check :
    invA ∈ (run opsA).investments ∧
    invA2 ∈ (applyOp (run opsA) (.evaluateExpiry 0 200)).investments ∧
    stepOK invA.status invA2.status = true :=
  ⟨by decide, by decide,
    investment_status_machine.1 opsA (.evaluateExpiry 0 200) invA
      (by decide) invA2 (by decide) (by decide)⟩

end IdeaHub
